import Mathlib

/-!
# Verification model of the ghcr-cleanup-action core

A shallow embedding of the cleanup engine in `src/main.ts`: the dependency
graph builder, the candidate set reducer, the policy classifiers and the
cascading deletion engine, together with the remote-store collaborators
described at their interface boundary in the specification (the files
`registry.ts` and `github-package.ts` are not among the sources, so those
collaborators are modelled from the specification; each such definition is
marked in its doc comment).

JavaScript `Set` and `Map` values are modelled as insertion-ordered
duplicate-free lists and association lists; asynchronous calls are sequential
state transformers; a remote fetch that would throw in the source is modelled
as a skip, and the theorems below carry hypotheses that keep them away from
those aborting paths.
-/

set_option maxHeartbeats 1000000

namespace GhcrCleanup

/-- A container manifest: either a leaf manifest carrying content layers, or a
multi-architecture index manifest carrying an ordered list of child manifest
digests. Mirrors the `manifest.manifests` / `manifest.layers` shape checks of
src/main.ts; an index with an empty child list is still an index. -/
inductive Manifest where
  | leaf (layers : List String)
  | index (manifests : List String)
deriving DecidableEq, Repr

/-- A package version record of the package-metadata service: opaque id,
digest (the `name` field of the GitHub API record), tag list and update
timestamp (milliseconds; `none` when the record has no `updated_at`). -/
structure PackageVersion where
  id : Nat
  name : String
  tags : List String
  updated_at : Option Int
deriving DecidableEq, Repr

/-- Modelled from the spec: the remote store behind the registry client and
the package-metadata client. `packages` is the full listing of package
versions, `manifests` the content-addressed manifest store. -/
structure Remote where
  packages : List PackageVersion
  manifests : List (String × Manifest)
deriving DecidableEq, Repr

/-- The configuration surface of src/config.ts consumed by the core, values
only; `now` is the run timestamp used by the older-than cutoff. -/
structure Config where
  deleteTags : Option String
  excludeTags : Option String
  olderThan : Option Int
  now : Int
  deleteUntagged : Bool
  deleteGhostImages : Bool
  deletePartialImages : Bool
  keepNuntagged : Option Nat
  keepNtagged : Option Nat
deriving DecidableEq, Repr

/-- Modelled from the spec: the environment of one run, the configuration
plus the content addressing and id allocation that the remote store applies
to a pushed manifest (`putManifest` of the registry client). -/
structure Env where
  cfg : Config
  hash : Manifest → String
  freshId : Remote → Nat

/-- Insertion-ordered set insert (JavaScript `Set.prototype.add`). -/
def insertSet (s : List String) (x : String) : List String :=
  if x ∈ s then s else s ++ [x]

/-- Insertion-ordered deduplication (a JavaScript `Set` built from a list). -/
def dedup (xs : List String) : List String := xs.foldl insertSet []

/-- `getPackageByDigest` of the package-metadata client: the first loaded
package version with the given digest. -/
def getPackageByDigest (pkgs : List PackageVersion) (digest : String) :
    Option PackageVersion :=
  pkgs.find? (fun p => p.name == digest)

/-- `getIdByDigest` of the package-metadata client. -/
def getIdByDigest (pkgs : List PackageVersion) (digest : String) : Option Nat :=
  (getPackageByDigest pkgs digest).map (fun p => p.id)

/-- `getDigests` of the package-metadata client: the digest set of the loaded
listing, in listing order. -/
def getDigests (pkgs : List PackageVersion) : List String :=
  dedup (pkgs.map (fun p => p.name))

/-- `getTags` of the package-metadata client: the union of all tags across
the loaded listing. -/
def getTags (pkgs : List PackageVersion) : List String :=
  pkgs.foldl (fun acc p => p.tags.foldl insertSet acc) []

/-- `getDigestByTag` of the package-metadata client. -/
def getDigestByTag (pkgs : List PackageVersion) (tag : String) : Option String :=
  (pkgs.find? (fun p => p.tags.contains tag)).map (fun p => p.name)

/-- `getManifestByDigest` of the registry client: a lookup in the
content-addressed manifest store. In the source a missing manifest throws a
NotFound error; the model returns `none` and each caller skips. -/
def getManifestByDigest (r : Remote) (digest : String) : Option Manifest :=
  (r.manifests.find? (fun e => e.fst == digest)).map (fun e => e.snd)

/-- Modelled from the spec: `getTagDigest` of the registry client resolves a
tag to the digest of the package version carrying it. The client's internal
tag cache (the one `deleteTag` invalidates) is not modelled, so `deleteTag`
itself is the identity and is left out. -/
def getTagDigest (r : Remote) (tag : String) : Option String :=
  (r.packages.find? (fun p => p.tags.contains tag)).map (fun p => p.name)

/-- `getManifestByTag` of the registry client. -/
def getManifestByTag (r : Remote) (tag : String) : Option Manifest :=
  (getTagDigest r tag).bind (fun d => getManifestByDigest r d)

/-- Whether the first character list is an initial segment of the second
(kernel-reducible replacement for the byte-based `String.startsWith`). -/
def leadsChars : List Char → List Char → Bool
  | [], _ => true
  | _ :: _, [] => false
  | p :: ps, c :: cs => (p == c) && leadsChars ps cs

/-- Modelled from JavaScript string semantics: `String.prototype.replace`
with a string pattern replaces the first occurrence only. -/
def replaceFirstChars (pat rep : List Char) : List Char → List Char
  | [] => []
  | c :: cs =>
    if leadsChars pat (c :: cs) then rep ++ (c :: cs).drop pat.length
    else c :: replaceFirstChars pat rep cs

/-- JavaScript `s.replace(pat, rep)` on strings. -/
def jsReplace (s pat rep : String) : String :=
  ⟨replaceFirstChars pat.data rep.data s.data⟩

/-- JavaScript `s.startsWith(pat)`. -/
def jsStartsWith (s pat : String) : Bool := leadsChars pat.data s.data

/-- Splitting a character list at every comma (JavaScript `s.split(',')`). -/
def splitCommaChars : List Char → List Char → List (List Char)
  | [], cur => [cur.reverse]
  | c :: cs, cur =>
    if c == ',' then cur.reverse :: splitCommaChars cs []
    else splitCommaChars cs (c :: cur)

/-- JavaScript `s.split(',')` on strings. -/
def jsSplitComma (s : String) : List String :=
  (splitCommaChars s.data []).map (fun l => ⟨l⟩)

/-- A `*` wildcard consumes any run of characters: the rest of the pattern
may match at the current position or after dropping one character. -/
def globStar (matchRest : List Char → Bool) : List Char → Bool
  | [] => matchRest []
  | c :: cs => matchRest (c :: cs) || globStar matchRest cs

/-- Modelled from the spec: glob matching of the external wildcard-match
library on one pattern; `*` matches any run of zero or more characters and
`?` matches exactly one character. -/
def globChars : List Char → List Char → Bool
  | [], cs => cs.isEmpty
  | '*' :: ps, cs => globStar (globChars ps) cs
  | '?' :: _, [] => false
  | '?' :: ps, _ :: cs => globChars ps cs
  | _ :: _, [] => false
  | p :: ps, c :: cs => (p == c) && globChars ps cs

/-- Modelled from the spec: the comma-separated glob patterns of the
wildcard-match matcher are OR-ed. -/
def wcmatch (patterns : String) (tag : String) : Bool :=
  (jsSplitComma patterns).any (fun p => globChars p.data tag.data)

/-- The working state of one `CleanupAction` run of src/main.ts, together
with the remote store it mutates: the loaded package snapshot `pkgs`, the
candidate `filterSet`, the committed `deleteSet`, the in-use tag set, the
child-to-parents reference map `digestUsedBy`, the already-deleted set
`deleted`, the excluded tags, the two statistics counters, and a log
`deletions` of every digest passed to `deletePackageVersion`. -/
structure St where
  remote : Remote
  pkgs : List PackageVersion
  filterSet : List String
  deleteSet : List String
  tagsInUse : List String
  digestUsedBy : List (String × List String)
  deleted : List String
  excludeTags : List String
  numberImagesDeleted : Nat
  numberMultiImagesDeleted : Nat
  deletions : List String
deriving DecidableEq, Repr

/-- Modelled from the spec: `deletePackageVersion` of the package-metadata
client removes the package version with the given id from the remote listing
(the loaded snapshot is untouched until the next `loadPackages`); the digest
is appended to the run's deletion log. -/
def deletePackageVersion (st : St) (id : Nat) (digest : String) : St :=
  { st with
    remote := { st.remote with
                packages := st.remote.packages.filter (fun p => p.id != id) },
    deletions := st.deletions ++ [digest] }

/-- Modelled from the spec: `loadPackages` of the package-metadata client
refreshes the loaded snapshot from the remote listing. -/
def loadPackages (st : St) : St := { st with pkgs := st.remote.packages }

/-- Modelled from the spec: `putManifest` of the registry client pushes a
manifest body under a tag; the tag repoints to the digest of the pushed body,
so the tag is removed from every package version carrying it and a new
single-tag package version is created for the pushed manifest. -/
def putManifest (env : Env) (r : Remote) (tag : String) (m : Manifest) : Remote :=
  let d := env.hash m
  { packages :=
      (r.packages.map (fun p => { p with tags := p.tags.erase tag })) ++
        [{ id := env.freshId r, name := d, tags := [tag], updated_at := none }],
    manifests := r.manifests ++ [(d, m)] }

/-- Association-list insert used to build `digestUsedBy`: create the child's
parent set on first contact, extend it otherwise (the `parents` handling of
`loadDigestUsedByMap` in src/main.ts). -/
def addParent (m : List (String × List String)) (child parent : String) :
    List (String × List String) :=
  match m.find? (fun e => e.fst == child) with
  | none => m ++ [(child, [parent])]
  | some _ =>
      m.map (fun e => if e.fst == child then (e.fst, insertSet e.snd parent) else e)

/-- `digestUsedBy.get(child)`. -/
def lookupUsedBy (m : List (String × List String)) (child : String) :
    Option (List String) :=
  (m.find? (fun e => e.fst == child)).map (fun e => e.snd)

/-- `digestUsedBy.delete(child)`. -/
def eraseUsedBy (m : List (String × List String)) (child : String) :
    List (String × List String) :=
  m.filter (fun e => e.fst != child)

/-- In-place mutation of the parent set held in `digestUsedBy` for `child`
(the `parents.delete(...)` call of `deleteImage` mutates the stored set). -/
def setUsedBy (m : List (String × List String)) (child : String)
    (parents : List String) : List (String × List String) :=
  m.map (fun e => if e.fst == child then (e.fst, parents) else e)

/-- `loadDigestUsedByMap` of src/main.ts: for every known digest whose
manifest is an index, record an edge child digest to parent digest for each
child that is itself a known package digest. A missing manifest for a known
digest aborts the run in the source; the model skips it. -/
def loadDigestUsedByMap (st : St) : St :=
  let digests := getDigests st.pkgs
  { st with digestUsedBy :=
      digests.foldl (fun acc digest =>
        match getManifestByDigest st.remote digest with
        | some (Manifest.index children) =>
            children.foldl (fun acc2 child =>
              if child ∈ digests then addParent acc2 child digest else acc2) acc
        | _ => acc) [] }

/-- The referrer/attestation tag conventionally associated to a digest:
`digest.replace('sha256:', 'sha256-')`. -/
def referrerTagOf (digest : String) : String :=
  jsReplace digest "sha256:" "sha256-"

/-- One iteration of the `trimChildren` loop of src/main.ts: remove the index
children of the digest's manifest from the filter set, then, when the
digest's referrer tag is in use and not excluded, remove the referrer's
digest and the referrer manifest's own children. -/
def trimStep (st : St) (digest : String) : St :=
  let st1 :=
    match getManifestByDigest st.remote digest with
    | some (Manifest.index children) =>
        { st with filterSet := children.foldl (fun fs c => fs.erase c) st.filterSet }
    | _ => st
  let referrerTag := referrerTagOf digest
  if referrerTag ∈ st1.tagsInUse ∧ referrerTag ∉ st1.excludeTags then
    match getTagDigest st1.remote referrerTag with
    | none => st1
    | some referrerDigest =>
      let st2 := { st1 with filterSet := st1.filterSet.erase referrerDigest }
      match getManifestByTag st2.remote referrerTag with
      | some (Manifest.index children2) =>
          { st2 with filterSet := children2.foldl (fun fs c => fs.erase c) st2.filterSet }
      | _ => st2
  else st1

/-- `trimChildren` of src/main.ts: the child and referrer trim over all known
digests. -/
def trimChildren (st : St) : St :=
  (getDigests st.pkgs).foldl trimStep st

/-- The exclude-tags portion of `reload` in src/main.ts: reset the excluded
tag list, then, when an exclude pattern is configured, remove the digest of
every matching in-use tag from the filter set and record the tag. -/
def excludeTrim (env : Env) (st : St) : St :=
  let st0 := { st with excludeTags := [] }
  match env.cfg.excludeTags with
  | none => st0
  | some pat =>
      st0.tagsInUse.foldl (fun s tag =>
        if wcmatch pat tag then
          let s1 :=
            match getDigestByTag s.pkgs tag with
            | some digest => { s with filterSet := s.filterSet.erase digest }
            | none => s
          { s1 with excludeTags := s1.excludeTags ++ [tag] }
        else s) st0

/-- The older-than portion of `reload` in src/main.ts: remove every filter
set digest whose package was updated at or after the cutoff; packages with no
`updated_at` are kept. -/
def ageTrim (env : Env) (st : St) : St :=
  match env.cfg.olderThan with
  | none => st
  | some olderThan =>
      st.filterSet.foldl (fun s digest =>
        match getPackageByDigest s.pkgs digest with
        | none => s
        | some p =>
          match p.updated_at with
          | none => s
          | some packageDate =>
              if packageDate ≥ env.cfg.now - olderThan then
                { s with filterSet := s.filterSet.erase digest }
              else s) st

/-- `reload` of src/main.ts: clear the delete and deleted sets, re-read the
package listing, rebuild the reference map, and run the three candidate set
trims. -/
def reload (env : Env) (st : St) : St :=
  let stA := { st with deleteSet := [], deleted := [] }
  let stB := loadPackages stA
  let stC := { stB with filterSet := getDigests stB.pkgs, tagsInUse := getTags stB.pkgs }
  let stD := loadDigestUsedByMap stC
  let stE := trimChildren stD
  let stF := excludeTrim env stE
  ageTrim env stF

/-- The digests one `trimStep` iteration removes from the filter set, as a
predicate: the index children of the digest's manifest, and — when the
digest's referrer tag is in use and not excluded — the referrer's digest and
the index children of the referrer's manifest. -/
def trimStepRemoves (r : Remote) (tags E : List String) (d x : String) : Bool :=
  (match getManifestByDigest r d with
   | some (Manifest.index cs) => cs.contains x
   | _ => false) ||
  (if referrerTagOf d ∈ tags ∧ referrerTagOf d ∉ E then
     match getTagDigest r (referrerTagOf d) with
     | none => false
     | some rd =>
       (x == rd) ||
       (match getManifestByDigest r rd with
        | some (Manifest.index cs2) => cs2.contains x
        | _ => false)
   else false)

/-- The digests the whole child/referrer trim removes, relative to the
excluded tag list `E` it runs under. -/
def trimRemoves (r : Remote) (pkgs : List PackageVersion) (tags E : List String)
    (x : String) : Bool :=
  (getDigests pkgs).any (fun d => trimStepRemoves r tags E d x)

/-- One iteration of the exclude-tag trim of `reload`: for a matching in-use
tag, remove its resolved digest from the filter set and record the tag. -/
def exclStep (pat : String) (s : St) (tag : String) : St :=
  if wcmatch pat tag then
    let s1 :=
      match getDigestByTag s.pkgs tag with
      | some digest => { s with filterSet := s.filterSet.erase digest }
      | none => s
    { s1 with excludeTags := s1.excludeTags ++ [tag] }
  else s

/-- The excluded tag list the exclude-tag trim produces from the in-use tag
list. -/
def exclTagsOf (env : Env) (tags : List String) : List String :=
  match env.cfg.excludeTags with
  | none => []
  | some pat => tags.filter (fun t => wcmatch pat t)

/-- The digests the exclude-tag trim removes from the filter set. -/
def exclRemoves (env : Env) (pkgs : List PackageVersion) (tags : List String)
    (x : String) : Bool :=
  match env.cfg.excludeTags with
  | none => false
  | some pat =>
      tags.any (fun t => wcmatch pat t && (getDigestByTag pkgs t == some x))

/-- Whether a digest's package is updated at or after the cutoff (such a
digest is removed by the older-than trim). -/
def ageRaw (now olderThan : Int) (pkgs : List PackageVersion) (d : String) : Bool :=
  match getPackageByDigest pkgs d with
  | none => false
  | some p =>
    match p.updated_at with
    | none => false
    | some packageDate => decide (packageDate ≥ now - olderThan)

/-- One iteration of the older-than trim of `reload`. -/
def ageStep (now olderThan : Int) (s : St) (digest : String) : St :=
  match getPackageByDigest s.pkgs digest with
  | none => s
  | some p =>
    match p.updated_at with
    | none => s
    | some packageDate =>
        if packageDate ≥ now - olderThan then
          { s with filterSet := s.filterSet.erase digest }
        else s

/-- The digests the older-than trim removes, `false` everywhere when no
cutoff is configured. -/
def agePred (env : Env) (pkgs : List PackageVersion) (x : String) : Bool :=
  match env.cfg.olderThan with
  | none => false
  | some olderThan => ageRaw env.cfg.now olderThan pkgs x

/-- A digest survives all three candidate set trims (the child/referrer trim
taken relative to the excluded tag list `E`). -/
def keepPred (env : Env) (r : Remote) (pkgs : List PackageVersion)
    (tags E : List String) (x : String) : Bool :=
  !(trimRemoves r pkgs tags E x) && !(exclRemoves env pkgs tags x) &&
    !(agePred env pkgs x)

/-- The child marking and warning step of the `validate` loop in
src/main.ts: mark the child processed, and record a warning entry when the
child digest is not a known package. -/
def validateChildStep (pkgs : List PackageVersion)
    (acc2 : List String × List String) (child : String) :
    List String × List String :=
  ((if (getIdByDigest pkgs child).isNone then acc2.fst ++ [child] else acc2.fst),
   insertSet acc2.snd child)

/-- One iteration of the outer `validate` loop of src/main.ts: skip digests
already marked processed, and walk the children of index manifests. -/
def validateStep (st : St) (acc : List String × List String) (digest : String) :
    List String × List String :=
  if digest ∈ acc.snd then acc
  else
    match getManifestByDigest st.remote digest with
    | some (Manifest.index children) =>
        children.foldl (validateChildStep st.pkgs) acc
    | _ => acc

/-- The orphaned referrer tag check of `validate` in src/main.ts. -/
def validateReferrerStep (pkgs : List PackageVersion) (ws : List String)
    (tag : String) : List String :=
  if jsStartsWith tag "sha256-" then
    if (getIdByDigest pkgs (jsReplace tag "sha256-" "sha256:")).isNone then
      ws ++ [tag]
    else ws
  else ws

/-- `validate` of src/main.ts: walk every known digest not yet marked
processed; for index manifests, mark each child digest processed and record a
warning entry for each child digest that is not a known package; separately
record a warning for every referrer-style tag whose parent digest no longer
exists. The state is only read; the returned list holds the warned child
digests and orphaned referrer tags in emission order. -/
def validate (st : St) : List String :=
  let first := ((getDigests st.pkgs).foldl (validateStep st) ([], [])).fst
  let second := st.tagsInUse.foldl (validateReferrerStep st.pkgs) []
  first ++ second

/-- One iteration of the child loop of `deleteImage` in src/main.ts: a child
that is a known, not yet deleted package is deleted (and its reference map
entry dropped) when the deleted image is its only recorded parent, otherwise
only this parent is removed from the child's parent set; a child with no
reference map entry is logged and skipped. -/
def deleteChildStep (ghPackageName : String) (s : St) (childDigest : String) : St :=
  match getPackageByDigest s.pkgs childDigest with
  | none => s
  | some manifestPackage =>
    if manifestPackage.name ∈ s.deleted then s
    else
      match lookupUsedBy s.digestUsedBy manifestPackage.name with
      | none => s
      | some parents =>
        if parents.length == 1 ∧ ghPackageName ∈ parents then
          let s1 := deletePackageVersion s manifestPackage.id manifestPackage.name
          { s1 with
            deleted := insertSet s1.deleted manifestPackage.name,
            numberImagesDeleted := s1.numberImagesDeleted + 1,
            digestUsedBy := eraseUsedBy s1.digestUsedBy manifestPackage.name }
        else
          let ps1 := parents.erase ghPackageName
          { s with digestUsedBy := setUsedBy s.digestUsedBy manifestPackage.name ps1 }

/-- The `if (manifest.manifests)` block of `deleteImage` in src/main.ts:
for an index manifest, count a multi-architecture deletion and run
`deleteChildStep` over the children; a leaf manifest has no children. -/
def deleteImageChildren (ghPackageName : String) (manifest : Manifest) (st : St) : St :=
  match manifest with
  | Manifest.leaf _ => st
  | Manifest.index children =>
    let stM := { st with numberMultiImagesDeleted := st.numberMultiImagesDeleted + 1 }
    children.foldl (deleteChildStep ghPackageName) stM

/-- The referrer block of `deleteImage` in src/main.ts: when the digest's
referrer tag is in use and not excluded, resolve it and recursively delete
the referrer package through `recurse`. -/
def deleteImageReferrer (recurse : St → PackageVersion → St)
    (ghPackageName : String) (st : St) : St :=
  let attestationTag := referrerTagOf ghPackageName
  if attestationTag ∈ st.tagsInUse ∧ attestationTag ∉ st.excludeTags then
    match getTagDigest st.remote attestationTag with
    | none => st
    | some manifestDigest =>
      match getPackageByDigest st.pkgs manifestDigest with
      | none => st
      | some attestationPackage => recurse st attestationPackage
  else st

/-- `deleteImage` of src/main.ts: skip when already deleted; otherwise fetch
the manifest, delete the package version, count it, run the child loop for an
index manifest, and finally the referrer recursion. `fuel` bounds the
referrer recursion; a run out of fuel leaves the state unchanged. -/
def deleteImage : Nat → St → PackageVersion → St
  | 0, st, _ => st
  | fuel + 1, st, ghPackage =>
    if ghPackage.name ∈ st.deleted then st
    else
      match getManifestByDigest st.remote ghPackage.name with
      | none => st
      | some manifest =>
        let stA := deletePackageVersion st ghPackage.id ghPackage.name
        let stB := { stA with deleted := insertSet stA.deleted ghPackage.name,
                              numberImagesDeleted := stA.numberImagesDeleted + 1 }
        let stC := deleteImageChildren ghPackage.name manifest stB
        deleteImageReferrer (deleteImage fuel) ghPackage.name stC

/-- One iteration of the `doDelete` loop of src/main.ts: resolve the digest
in the loaded snapshot and invoke `deleteImage` on the resolved package. -/
def doDeleteStep (fuel : Nat) (s : St) (deleteDigest : String) : St :=
  match getPackageByDigest s.pkgs deleteDigest with
  | none => s
  | some p => deleteImage fuel s p

/-- `doDelete` of src/main.ts: invoke `deleteImage` on the resolved package
of every digest in the delete set. -/
def doDelete (fuel : Nat) (st : St) : St :=
  st.deleteSet.foldl (doDeleteStep fuel) st

/-- The ghost test of `deleteGhostImages` in src/main.ts: the digest's
manifest is an index and the number of children missing from the known
package set equals the number of children. -/
def ghostPred (r : Remote) (pkgs : List PackageVersion) (digest : String) : Bool :=
  match getManifestByDigest r digest with
  | some (Manifest.index children) =>
      children.countP (fun c => (getIdByDigest pkgs c).isNone) == children.length
  | _ => false

/-- The partial test of `deletePartialImages` in src/main.ts: the digest's
manifest is an index and some child is missing from the known package set. -/
def partialPred (r : Remote) (pkgs : List PackageVersion) (digest : String) : Bool :=
  match getManifestByDigest r digest with
  | some (Manifest.index children) =>
      children.any (fun c => (getIdByDigest pkgs c).isNone)
  | _ => false

/-- The untagged test of `deleteUntagged` in src/main.ts: the digest's
package carries no tags. -/
def untaggedPred (_r : Remote) (pkgs : List PackageVersion) (digest : String) : Bool :=
  match getPackageByDigest pkgs digest with
  | some p => p.tags.isEmpty
  | none => false

/-- The common loop body of the classifiers that move a matching digest from
the filter set to the delete set. -/
def moveStep (pred : Remote → List PackageVersion → String → Bool)
    (s : St) (digest : String) : St :=
  if pred s.remote s.pkgs digest then
    { s with filterSet := s.filterSet.erase digest,
             deleteSet := insertSet s.deleteSet digest }
  else s

/-- `deleteGhostImages` of src/main.ts. -/
def deleteGhostImages (st : St) : St :=
  st.filterSet.foldl (moveStep ghostPred) st

/-- `deletePartialImages` of src/main.ts. -/
def deletePartialImages (st : St) : St :=
  st.filterSet.foldl (moveStep partialPred) st

/-- `deleteUntagged` of src/main.ts. -/
def deleteUntagged (st : St) : St :=
  st.filterSet.foldl (moveStep untaggedPred) st

/-- `Date.parse` applied to a package's `updated_at` value inside the keep-N
sort comparators; missing values are approximated by 0. -/
def parseDate (d : Option Int) : Int :=
  match d with
  | some t => t
  | none => 0

/-- The descending stable sort by `updated_at` of `keepNtagged` and
`keepNuntagged` in src/main.ts. -/
def sortByUpdatedDesc (ps : List PackageVersion) : List PackageVersion :=
  ps.mergeSort (fun a b => decide (parseDate b.updated_at ≤ parseDate a.updated_at))

/-- `keepNuntagged` of src/main.ts: collect the untagged filter set packages,
sort them newest first, and move every entry beyond position N into the
delete set. -/
def keepNuntagged (env : Env) (st : St) : St :=
  match env.cfg.keepNuntagged with
  | none => st
  | some n =>
    let unTaggedPackages :=
      st.filterSet.foldl (fun acc digest =>
        match getPackageByDigest st.pkgs digest with
        | some p => if p.tags.isEmpty then acc ++ [p] else acc
        | none => acc) []
    if unTaggedPackages.length > 0 then
      let sorted := sortByUpdatedDesc unTaggedPackages
      if sorted.length > n then
        (sorted.drop n).foldl (fun s p =>
          { s with deleteSet := insertSet s.deleteSet p.name,
                   filterSet := s.filterSet.erase p.name }) st
      else st
    else st

/-- `keepNtagged` of src/main.ts: collect the tagged filter set packages,
sort them newest first, and move every entry beyond position N into the
delete set. -/
def keepNtagged (env : Env) (st : St) : St :=
  match env.cfg.keepNtagged with
  | none => st
  | some n =>
    let taggedPackages :=
      st.filterSet.foldl (fun acc digest =>
        match getPackageByDigest st.pkgs digest with
        | some p => if p.tags.length > 0 then acc ++ [p] else acc
        | none => acc) []
    let sorted := sortByUpdatedDesc taggedPackages
    if sorted.length > n then
      (sorted.drop n).foldl (fun s p =>
        { s with deleteSet := insertSet s.deleteSet p.name,
                 filterSet := s.filterSet.erase p.name }) st
    else st

/-- The clone-and-empty step of the untagging workaround in `deleteByTag`:
an index manifest keeps its shape with an empty child list, a leaf manifest
keeps its shape with an empty layer list. -/
def emptiedManifest (m : Manifest) : Manifest :=
  match m with
  | Manifest.index _ => Manifest.index []
  | Manifest.leaf _ => Manifest.leaf []

/-- The match list of `deleteByTag` in src/main.ts: every tag of a filter set
package matching the delete-tags patterns, in filter set order. -/
def matchTagsOf (pat : String) (st : St) : List String :=
  st.filterSet.foldl (fun acc digest =>
    match getPackageByDigest st.pkgs digest with
    | none => acc
    | some p => acc ++ p.tags.filter (fun tag => wcmatch pat tag)) []

/-- The pre-scan of `deleteByTag` in src/main.ts: split the non-excluded
matched tags into the untagging set (resolved digest carries more than one
tag) and the standard set (exactly one tag). -/
def prescanTags (st : St) (matchTags : List String) : List String × List String :=
  matchTags.foldl (fun acc tag =>
    if tag ∈ st.excludeTags then acc
    else
      match getTagDigest st.remote tag with
      | none => acc
      | some manifestDigest =>
        match getPackageByDigest st.pkgs manifestDigest with
        | none => acc
        | some ghPackage =>
          if ghPackage.tags.length > 1 then (insertSet acc.fst tag, acc.snd)
          else if ghPackage.tags.length == 1 then (acc.fst, insertSet acc.snd tag)
          else acc) ([], [])

/-- One iteration of the untagging loop of `deleteByTag` in src/main.ts:
recheck the tag count (a single-tag digest is deferred into the standard
set), otherwise push the emptied clone of the manifest under the same tag,
reload the package listing, resolve the tag to its new digest and delete
that new package version. The `registry.deleteTag` cache invalidation has no
counterpart here because the tag cache is not modelled. -/
def processUntag (env : Env) (acc : St × List String) (tag : String) :
    St × List String :=
  let st := acc.fst
  match getTagDigest st.remote tag with
  | none => acc
  | some manifestDigest =>
    match getPackageByDigest st.pkgs manifestDigest with
    | none => acc
    | some ghPackage =>
      if ghPackage.tags.length == 1 then (st, insertSet acc.snd tag)
      else
        match getManifestByTag st.remote tag with
        | none => acc
        | some manifest =>
          let stA := { st with
                       remote := putManifest env st.remote tag (emptiedManifest manifest) }
          let stB := loadPackages stA
          match getTagDigest stB.remote tag with
          | none => (stB, acc.snd)
          | some untaggedDigest =>
            match getIdByDigest stB.pkgs untaggedDigest with
            | some id =>
                let stC := deletePackageVersion stB id untaggedDigest
                ({ stC with numberImagesDeleted := stC.numberImagesDeleted + 1 },
                 acc.snd)
            | none => (stB, acc.snd)

/-- `deleteByTag` of src/main.ts: match the delete-tags patterns against the
tags of filter set packages; process every untagging case through the
manifest-repoint workaround, reload the whole pipeline when any untagging
happened, and then move the resolved digest of every standard tag from the
filter set to the delete set. -/
def deleteByTag (env : Env) (st : St) : St :=
  match env.cfg.deleteTags with
  | none => st
  | some pat =>
    let matchTags := matchTagsOf pat st
    if matchTags.length > 0 then
      let pre := prescanTags st matchTags
      let untaggingTags := pre.fst
      let acc := untaggingTags.foldl (processUntag env) (st, pre.snd)
      let st1 := if untaggingTags.length > 0 then reload env acc.fst else acc.fst
      acc.snd.foldl (fun s tag =>
        match getTagDigest s.remote tag with
        | none => s
        | some manifestDigest =>
          { s with deleteSet := insertSet s.deleteSet manifestDigest,
                   filterSet := s.filterSet.erase manifestDigest }) st1
    else st

/-- The match-list step of `deleteByTag`: collect the pattern-matching tags
of one filter set digest's package record. -/
def matchStep (pkgs : List PackageVersion) (pat : String)
    (acc : List String) (digest : String) : List String :=
  match getPackageByDigest pkgs digest with
  | none => acc
  | some p => acc ++ p.tags.filter (fun tag => wcmatch pat tag)

/-- The pre-scan step of `deleteByTag`: classify one non-excluded matched tag
into the untagging set or the standard set by its resolved tag count. -/
def prescanStep (st : St) (acc : List String × List String) (tag : String) :
    List String × List String :=
  if tag ∈ st.excludeTags then acc
  else
    match getTagDigest st.remote tag with
    | none => acc
    | some manifestDigest =>
      match getPackageByDigest st.pkgs manifestDigest with
      | none => acc
      | some ghPackage =>
        if ghPackage.tags.length > 1 then (insertSet acc.fst tag, acc.snd)
        else if ghPackage.tags.length == 1 then (acc.fst, insertSet acc.snd tag)
        else acc

/-- A concrete state where the tag v1 is in use and carried by a package
whose digest is no longer in the filter set. -/
def stC7 : St :=
  { remote := { packages := [⟨1, "sha256:a", ["v1"], none⟩,
                             ⟨2, "sha256:b", [], none⟩],
                manifests := [("sha256:a", Manifest.leaf []),
                              ("sha256:b", Manifest.leaf [])] },
    pkgs := [⟨1, "sha256:a", ["v1"], none⟩, ⟨2, "sha256:b", [], none⟩],
    filterSet := ["sha256:b"], deleteSet := [], tagsInUse := ["v1"],
    digestUsedBy := [], deleted := [], excludeTags := [],
    numberImagesDeleted := 0, numberMultiImagesDeleted := 0,
    deletions := [] }

/-- An environment requesting deletion of the tag v1. -/
def envC7 : Env :=
  { cfg := { deleteTags := some "v1", excludeTags := none, olderThan := none,
             now := 0, deleteUntagged := false, deleteGhostImages := false,
             deletePartialImages := false, keepNuntagged := none,
             keepNtagged := none },
    hash := fun _ => "h", freshId := fun _ => 0 }

/-- An environment requesting deletion of the tags v1 and w1, whose content
addressing assigns the digest sha256:n and the id 3 to the next pushed
manifest. -/
def envC4 : Env :=
  { cfg := { deleteTags := some "v1,w1", excludeTags := none, olderThan := none,
             now := 0, deleteUntagged := false, deleteGhostImages := false,
             deletePartialImages := false, keepNuntagged := none,
             keepNtagged := none },
    hash := fun _ => "sha256:n", freshId := fun _ => 3 }

/-- A concrete run state, generic in the two stored manifest bodies: the
digest sha256:d carries the tags v1 and v2 and the manifest `m`, the digest
sha256:s carries the single tag w1 and the manifest `mS`; the delete set
holds a leftover entry to observe the reload. -/
def stC4 (m mS : Manifest) : St :=
  { remote := { packages := [⟨1, "sha256:d", ["v1", "v2"], none⟩,
                             ⟨2, "sha256:s", ["w1"], none⟩],
                manifests := [("sha256:d", m), ("sha256:s", mS)] },
    pkgs := [⟨1, "sha256:d", ["v1", "v2"], none⟩,
             ⟨2, "sha256:s", ["w1"], none⟩],
    filterSet := ["sha256:d", "sha256:s"], deleteSet := ["sha256:x0"],
    tagsInUse := ["v1", "v2", "w1"], digestUsedBy := [], deleted := [],
    excludeTags := [], numberImagesDeleted := 0, numberMultiImagesDeleted := 0,
    deletions := [] }

/-- The state reached from `stC4` after the untagging of v1 and before the
reload: the tag v1 has been repointed to the emptied clone sha256:n, the
clone's package version has been deleted from the remote listing, and the
stale three-entry snapshot is still loaded. -/
def stMidC4 (m mS : Manifest) : St :=
  { remote := { packages := [⟨1, "sha256:d", ["v2"], none⟩,
                             ⟨2, "sha256:s", ["w1"], none⟩],
                manifests := [("sha256:d", m), ("sha256:s", mS),
                              ("sha256:n", emptiedManifest m)] },
    pkgs := [⟨1, "sha256:d", ["v2"], none⟩, ⟨2, "sha256:s", ["w1"], none⟩,
             ⟨3, "sha256:n", ["v1"], none⟩],
    filterSet := ["sha256:d", "sha256:s"], deleteSet := ["sha256:x0"],
    tagsInUse := ["v1", "v2", "w1"], digestUsedBy := [], deleted := [],
    excludeTags := [], numberImagesDeleted := 1, numberMultiImagesDeleted := 0,
    deletions := ["sha256:n"] }

/-- An environment with an exclude pattern and an age cutoff, used to
exercise the candidate set reducer. -/
def envC6 : Env :=
  { cfg := { deleteTags := none, excludeTags := some "v1", olderThan := some 10,
             now := 7, deleteUntagged := true, deleteGhostImages := false,
             deletePartialImages := false, keepNuntagged := none,
             keepNtagged := none },
    hash := fun _ => "h", freshId := fun _ => 0 }

/-- A fresh two-package state: an index manifest whose tag is excluded and
whose child is itself a known package. -/
def stC6 : St :=
  { remote := { packages := [⟨1, "sha256:top", ["v1"], none⟩,
                             ⟨2, "sha256:child", [], some 5⟩],
                manifests := [("sha256:top", Manifest.index ["sha256:child"]),
                              ("sha256:child", Manifest.leaf [])] },
    pkgs := [⟨1, "sha256:top", ["v1"], none⟩, ⟨2, "sha256:child", [], some 5⟩],
    filterSet := ["sha256:top", "sha256:child"], deleteSet := [],
    tagsInUse := ["v1"], digestUsedBy := [], deleted := [], excludeTags := [],
    numberImagesDeleted := 0, numberMultiImagesDeleted := 0, deletions := [] }

/-- The invariants of the cascading deletion engine: `deleteImage` and its
helpers never change the loaded snapshot, the manifest store, the filter and
delete sets, the in-use tags or the excluded tags, and they only ever grow the
deleted set. -/
structure DeleteFrame (s t : St) : Prop where
  pkgs_eq : t.pkgs = s.pkgs
  manifests_eq : t.remote.manifests = s.remote.manifests
  filterSet_eq : t.filterSet = s.filterSet
  deleteSet_eq : t.deleteSet = s.deleteSet
  tagsInUse_eq : t.tagsInUse = s.tagsInUse
  excludeTags_eq : t.excludeTags = s.excludeTags
  deleted_mono : ∀ x, x ∈ s.deleted → x ∈ t.deleted

/-- A concrete state with two index manifests sharing a missing child, used
to exercise the validator on duplicated warnings. -/
def stC9W : St :=
  { remote := { packages := [⟨1, "sha256:q1", [], none⟩,
                             ⟨2, "sha256:q2", [], none⟩],
                manifests := [("sha256:q1", Manifest.index ["sha256:d"]),
                              ("sha256:q2", Manifest.index ["sha256:d"])] },
    pkgs := [⟨1, "sha256:q1", [], none⟩, ⟨2, "sha256:q2", [], none⟩],
    filterSet := [], deleteSet := [], tagsInUse := [],
    digestUsedBy := [], deleted := [], excludeTags := [],
    numberImagesDeleted := 0, numberMultiImagesDeleted := 0,
    deletions := [] }

/-! ## Set and fold lemmas -/

theorem mem_insertSet {s : List String} {x y : String} :
    x ∈ insertSet s y ↔ x ∈ s ∨ x = y := by
  unfold insertSet
  split
  · constructor
    · exact fun h => Or.inl h
    · rintro (h | rfl)
      · exact h
      · assumption
  · simp [List.mem_append]

theorem self_mem_insertSet (s : List String) (y : String) : y ∈ insertSet s y :=
  mem_insertSet.mpr (Or.inr rfl)

theorem mem_of_mem_insertSet {s : List String} {x y : String} (h : x ∈ s) :
    x ∈ insertSet s y := mem_insertSet.mpr (Or.inl h)

theorem nodup_insertSet {s : List String} (y : String) (h : s.Nodup) :
    (insertSet s y).Nodup := by
  unfold insertSet
  split
  · exact h
  · next hy => simpa [List.nodup_append] using ⟨h, fun hx => hy hx⟩

theorem foldl_preserves {α : Type} {f : St → α → St} {P : St → Prop}
    (h : ∀ s x, P s → P (f s x)) :
    ∀ (l : List α) (s : St), P s → P (l.foldl f s)
  | [], _, hs => hs
  | x :: t, s, hs => foldl_preserves h t (f s x) (h s x hs)

theorem mem_foldl_insertIf {p : String → Bool} :
    ∀ (l : List String) (ds : List String) (x : String),
      (x ∈ l.foldl (fun ds d => if p d then insertSet ds d else ds) ds ↔
        x ∈ ds ∨ (x ∈ l ∧ p x = true))
  | [], ds, x => by simp
  | d :: t, ds, x => by
    rw [List.foldl_cons]
    cases hp : p d with
    | true =>
      rw [if_pos rfl, mem_foldl_insertIf t, mem_insertSet, List.mem_cons]
      constructor
      · rintro ((h | rfl) | ⟨h1, h2⟩)
        · exact Or.inl h
        · exact Or.inr ⟨Or.inl rfl, hp⟩
        · exact Or.inr ⟨Or.inr h1, h2⟩
      · rintro (h | ⟨(rfl | h1), h2⟩)
        · exact Or.inl (Or.inl h)
        · exact Or.inl (Or.inr rfl)
        · exact Or.inr ⟨h1, h2⟩
    | false =>
      rw [if_neg Bool.false_ne_true, mem_foldl_insertIf t, List.mem_cons]
      constructor
      · rintro (h | ⟨h1, h2⟩)
        · exact Or.inl h
        · exact Or.inr ⟨Or.inr h1, h2⟩
      · rintro (h | ⟨(rfl | h1), h2⟩)
        · exact Or.inl h
        · rw [h2] at hp; cases hp
        · exact Or.inr ⟨h1, h2⟩

/-- Folding `List.erase` over a removal list is filtering, on a
duplicate-free list. -/
theorem foldl_erase_eq_filter :
    ∀ (rl l : List String), l.Nodup →
      rl.foldl (fun fs c => fs.erase c) l = l.filter (fun x => !(rl.contains x))
  | [], l, _ => by simp
  | c :: rt, l, hnd => by
    rw [List.foldl_cons, foldl_erase_eq_filter rt (l.erase c) (hnd.erase c),
      hnd.erase_eq_filter c, List.filter_filter]
    refine List.filter_congr (fun x _ => ?_)
    by_cases hxc : x = c
    · subst hxc; simp
    · simp [hxc, List.contains_cons]

/-! ## Characterization of the classifier move loops -/

theorem moveStep_eq_update (p : Remote → List PackageVersion → String → Bool)
    (s : St) (d : String) :
    ∃ fs ds, moveStep p s d = { s with filterSet := fs, deleteSet := ds } := by
  unfold moveStep
  split
  · exact ⟨_, _, rfl⟩
  · exact ⟨s.filterSet, s.deleteSet, rfl⟩

theorem moveLoop_go (p : Remote → List PackageVersion → String → Bool) :
    ∀ (l pre : List String) (st : St),
      st.filterSet = pre ++ l → (pre ++ l).Nodup →
      l.foldl (moveStep p) st =
        { st with
          filterSet := pre ++ l.filter (fun d => !(p st.remote st.pkgs d)),
          deleteSet := l.foldl
            (fun ds d => if p st.remote st.pkgs d then insertSet ds d else ds)
            st.deleteSet }
  | [], pre, st, hfs, _ => by
    simp only [List.foldl_nil, List.filter_nil, List.append_nil] at *
    rw [← hfs]
  | d :: t, pre, st, hfs, hnd => by
    have hdpre : d ∉ pre := by
      rcases List.nodup_append.mp hnd with ⟨-, -, hdisj⟩
      exact fun hmem => hdisj hmem (List.mem_cons_self d t)
    cases hd : p st.remote st.pkgs d with
    | true =>
      have hstep : moveStep p st d =
          { st with filterSet := st.filterSet.erase d,
                    deleteSet := insertSet st.deleteSet d } := by
        unfold moveStep; rw [hd]; rw [if_pos rfl]
      rw [List.foldl_cons, hstep]
      have hfs' : ({ st with filterSet := st.filterSet.erase d,
                             deleteSet := insertSet st.deleteSet d } : St).filterSet
          = pre ++ t := by
        show st.filterSet.erase d = pre ++ t
        rw [hfs, List.erase_append_right _ hdpre, List.erase_cons_head]
      have hnd' : (pre ++ t).Nodup := by
        refine List.Nodup.sublist ?_ hnd
        exact List.Sublist.append_left (List.sublist_cons_self d t) pre
      rw [moveLoop_go p t pre _ hfs' hnd']
      rw [List.foldl_cons, List.filter_cons_of_neg (by simp [hd]), hd]
      rfl
    | false =>
      have hstep : moveStep p st d = st := by
        unfold moveStep; rw [hd]; rfl
      rw [List.foldl_cons, hstep]
      have hfs' : st.filterSet = (pre ++ [d]) ++ t := by
        rw [hfs, List.append_assoc, List.singleton_append]
      have hnd' : ((pre ++ [d]) ++ t).Nodup := by
        rw [List.append_assoc, List.singleton_append]; exact hnd
      rw [moveLoop_go p t (pre ++ [d]) st hfs' hnd']
      rw [List.foldl_cons, List.filter_cons_of_pos (by simp [hd]), hd]
      rw [List.append_assoc, List.singleton_append]
      rfl

theorem moveLoop_eq (p : Remote → List PackageVersion → String → Bool)
    (st : St) (h : st.filterSet.Nodup) :
    st.filterSet.foldl (moveStep p) st =
      { st with
        filterSet := st.filterSet.filter (fun d => !(p st.remote st.pkgs d)),
        deleteSet := st.filterSet.foldl
          (fun ds d => if p st.remote st.pkgs d then insertSet ds d else ds)
          st.deleteSet } := by
  have := moveLoop_go p st.filterSet [] st (by simp) (by simpa using h)
  simpa using this

theorem mem_moveLoop_deleteSet (p : Remote → List PackageVersion → String → Bool)
    (st : St) (h : st.filterSet.Nodup) (x : String) :
    x ∈ (st.filterSet.foldl (moveStep p) st).deleteSet ↔
      x ∈ st.deleteSet ∨ (x ∈ st.filterSet ∧ p st.remote st.pkgs x = true) := by
  rw [moveLoop_eq p st h]
  exact mem_foldl_insertIf st.filterSet st.deleteSet x

theorem mem_moveLoop_filterSet (p : Remote → List PackageVersion → String → Bool)
    (st : St) (h : st.filterSet.Nodup) (x : String) :
    x ∈ (st.filterSet.foldl (moveStep p) st).filterSet ↔
      x ∈ st.filterSet ∧ ¬(p st.remote st.pkgs x = true) := by
  rw [moveLoop_eq p st h]
  show x ∈ st.filterSet.filter _ ↔ _
  rw [List.mem_filter]
  simp

theorem ghostPred_of_index {r : Remote} {pkgs : List PackageVersion} {d : String}
    {cs : List String} (hm : getManifestByDigest r d = some (Manifest.index cs)) :
    ghostPred r pkgs d =
      (cs.countP (fun c => (getIdByDigest pkgs c).isNone) == cs.length) := by
  unfold ghostPred; rw [hm]

theorem partialPred_of_index {r : Remote} {pkgs : List PackageVersion} {d : String}
    {cs : List String} (hm : getManifestByDigest r d = some (Manifest.index cs)) :
    partialPred r pkgs d = cs.any (fun c => (getIdByDigest pkgs c).isNone) := by
  unfold partialPred; rw [hm]

theorem ghostPred_of_leaf {r : Remote} {pkgs : List PackageVersion} {d : String}
    {ls : List String} (hm : getManifestByDigest r d = some (Manifest.leaf ls)) :
    ghostPred r pkgs d = false := by
  unfold ghostPred; rw [hm]

theorem partialPred_of_leaf {r : Remote} {pkgs : List PackageVersion} {d : String}
    {ls : List String} (hm : getManifestByDigest r d = some (Manifest.leaf ls)) :
    partialPred r pkgs d = false := by
  unfold partialPred; rw [hm]

/-! ## Claim theorems: ghost and partial classification -/

/-- Claim C2: for an index manifest in the filter set with child list
`[A, B]`, if neither child resolves to a known package digest then both the
ghost classifier and the partial classifier move the digest from the filter
set to the delete set; if exactly one child is known, the partial classifier
moves it while the ghost classifier leaves it in place. -/
theorem claim_C2 (st : St) (X A B : String)
    (hnd : st.filterSet.Nodup) (hX : X ∈ st.filterSet) (hXd : X ∉ st.deleteSet)
    (hm : getManifestByDigest st.remote X = some (Manifest.index [A, B])) :
    ((getIdByDigest st.pkgs A = none ∧ getIdByDigest st.pkgs B = none) →
      (X ∈ (deleteGhostImages st).deleteSet ∧ X ∉ (deleteGhostImages st).filterSet) ∧
      (X ∈ (deletePartialImages st).deleteSet ∧ X ∉ (deletePartialImages st).filterSet)) ∧
    ((((getIdByDigest st.pkgs A).isSome ∧ getIdByDigest st.pkgs B = none) ∨
       (getIdByDigest st.pkgs A = none ∧ (getIdByDigest st.pkgs B).isSome)) →
      (X ∈ (deletePartialImages st).deleteSet ∧ X ∉ (deletePartialImages st).filterSet) ∧
      (X ∉ (deleteGhostImages st).deleteSet ∧ X ∈ (deleteGhostImages st).filterSet)) := by
  constructor
  · rintro ⟨hA, hB⟩
    have hg : ghostPred st.remote st.pkgs X = true := by
      rw [ghostPred_of_index hm]
      simp [hA, hB]
    have hp : partialPred st.remote st.pkgs X = true := by
      rw [partialPred_of_index hm]
      simp [hA]
    refine ⟨⟨?_, ?_⟩, ?_, ?_⟩
    · exact (mem_moveLoop_deleteSet ghostPred st hnd X).mpr (Or.inr ⟨hX, hg⟩)
    · intro hmem
      exact ((mem_moveLoop_filterSet ghostPred st hnd X).mp hmem).2 hg
    · exact (mem_moveLoop_deleteSet partialPred st hnd X).mpr (Or.inr ⟨hX, hp⟩)
    · intro hmem
      exact ((mem_moveLoop_filterSet partialPred st hnd X).mp hmem).2 hp
  · intro hone
    have hg : ghostPred st.remote st.pkgs X = false := by
      rw [ghostPred_of_index hm]
      rcases hone with ⟨hA, hB⟩ | ⟨hA, hB⟩
      · rcases Option.isSome_iff_exists.mp hA with ⟨a, ha⟩
        simp [ha, hB]
      · rcases Option.isSome_iff_exists.mp hB with ⟨b, hb⟩
        simp [hA, hb]
    have hp : partialPred st.remote st.pkgs X = true := by
      rw [partialPred_of_index hm]
      rcases hone with ⟨hA, hB⟩ | ⟨hA, hB⟩
      · simp [hB]
      · simp [hA]
    refine ⟨⟨?_, ?_⟩, ?_, ?_⟩
    · exact (mem_moveLoop_deleteSet partialPred st hnd X).mpr (Or.inr ⟨hX, hp⟩)
    · intro hmem
      exact ((mem_moveLoop_filterSet partialPred st hnd X).mp hmem).2 hp
    · intro hmem
      rcases (mem_moveLoop_deleteSet ghostPred st hnd X).mp hmem with h | ⟨-, h⟩
      · exact hXd h
      · rw [hg] at h; cases h
    · exact (mem_moveLoop_filterSet ghostPred st hnd X).mpr ⟨hX, by rw [hg]; simp⟩

/-- Witness for claim C2 at a concrete state: an index `sha256:x` with two
missing children, and an index `sha256:y` with one known and one missing
child. -/
theorem claim_C2_witness :
    (("sha256:x" ∈ (deleteGhostImages
        { remote := { packages := [⟨1, "sha256:x", [], none⟩],
                      manifests := [("sha256:x", Manifest.index ["sha256:a", "sha256:b"])] },
          pkgs := [⟨1, "sha256:x", [], none⟩],
          filterSet := ["sha256:x"], deleteSet := [], tagsInUse := [],
          digestUsedBy := [], deleted := [], excludeTags := [],
          numberImagesDeleted := 0, numberMultiImagesDeleted := 0,
          deletions := [] }).deleteSet)) := by
  have h := claim_C2
    { remote := { packages := [⟨1, "sha256:x", [], none⟩],
                  manifests := [("sha256:x", Manifest.index ["sha256:a", "sha256:b"])] },
      pkgs := [⟨1, "sha256:x", [], none⟩],
      filterSet := ["sha256:x"], deleteSet := [], tagsInUse := [],
      digestUsedBy := [], deleted := [], excludeTags := [],
      numberImagesDeleted := 0, numberMultiImagesDeleted := 0, deletions := [] }
    "sha256:x" "sha256:a" "sha256:b"
    (by decide) (by decide) (by decide) (by decide)
  exact (h.1 (by decide)).1.1

theorem ghostPred_of_none {r : Remote} {pkgs : List PackageVersion} {d : String}
    (hm : getManifestByDigest r d = none) : ghostPred r pkgs d = false := by
  unfold ghostPred; rw [hm]

theorem partialPred_of_none {r : Remote} {pkgs : List PackageVersion} {d : String}
    (hm : getManifestByDigest r d = none) : partialPred r pkgs d = false := by
  unfold partialPred; rw [hm]

/-- Claim C3 counterexample: an index manifest all of whose children are
unresolvable is nevertheless moved to the delete set by
`deletePartialImages`, so the some-but-not-all characterization of the claim
fails on the code. -/
theorem claim_C3_counterexample :
    getIdByDigest [⟨1, "sha256:x", [], none⟩] "sha256:a" = none ∧
    getManifestByDigest
      { packages := [⟨1, "sha256:x", [], none⟩],
        manifests := [("sha256:x", Manifest.index ["sha256:a"])] }
      "sha256:x" = some (Manifest.index ["sha256:a"]) ∧
    "sha256:x" ∈ (deletePartialImages
      { remote := { packages := [⟨1, "sha256:x", [], none⟩],
                    manifests := [("sha256:x", Manifest.index ["sha256:a"])] },
        pkgs := [⟨1, "sha256:x", [], none⟩],
        filterSet := ["sha256:x"], deleteSet := [], tagsInUse := [],
        digestUsedBy := [], deleted := [], excludeTags := [],
        numberImagesDeleted := 0, numberMultiImagesDeleted := 0,
        deletions := [] }).deleteSet := by
  refine ⟨by decide, by decide, by decide⟩

/-- Claim C3 (amended): `deletePartialImages` moves a digest from the filter
set to the delete set if and only if its manifest is an index manifest and at
least one of its child digests is unresolvable to a known package digest — in
particular an index all of whose children are unresolvable is also classified
partial; a digest whose manifest is a leaf is never moved by
`deletePartialImages` or by `deleteGhostImages`. -/
theorem claim_C3_amended (st : St) (d : String)
    (hnd : st.filterSet.Nodup) (hd : d ∈ st.filterSet) (hds : d ∉ st.deleteSet) :
    ((d ∈ (deletePartialImages st).deleteSet ∧ d ∉ (deletePartialImages st).filterSet) ↔
      (∃ cs, getManifestByDigest st.remote d = some (Manifest.index cs) ∧
        ∃ c ∈ cs, getIdByDigest st.pkgs c = none)) ∧
    (∀ ls, getManifestByDigest st.remote d = some (Manifest.leaf ls) →
      d ∉ (deletePartialImages st).deleteSet ∧ d ∉ (deleteGhostImages st).deleteSet) := by
  constructor
  · constructor
    · rintro ⟨hmem, -⟩
      rcases (mem_moveLoop_deleteSet partialPred st hnd d).mp hmem with h | ⟨-, hp⟩
      · exact absurd h hds
      · cases hmm : getManifestByDigest st.remote d with
        | none => rw [partialPred_of_none hmm] at hp; cases hp
        | some m =>
          cases m with
          | leaf ls => rw [partialPred_of_leaf hmm] at hp; cases hp
          | index cs =>
            rw [partialPred_of_index hmm, List.any_eq_true] at hp
            rcases hp with ⟨c, hc, hcn⟩
            exact ⟨cs, rfl, c, hc, Option.isNone_iff_eq_none.mp hcn⟩
    · rintro ⟨cs, hm, c, hc, hcnone⟩
      have hp : partialPred st.remote st.pkgs d = true := by
        rw [partialPred_of_index hm, List.any_eq_true]
        exact ⟨c, hc, by simp [hcnone]⟩
      refine ⟨(mem_moveLoop_deleteSet partialPred st hnd d).mpr (Or.inr ⟨hd, hp⟩), ?_⟩
      intro hmem
      exact ((mem_moveLoop_filterSet partialPred st hnd d).mp hmem).2 hp
  · intro ls hm
    constructor <;> intro hmem
    · rcases (mem_moveLoop_deleteSet partialPred st hnd d).mp hmem with h | ⟨-, hp⟩
      · exact hds h
      · rw [partialPred_of_leaf hm] at hp; cases hp
    · rcases (mem_moveLoop_deleteSet ghostPred st hnd d).mp hmem with h | ⟨-, hp⟩
      · exact hds h
      · rw [ghostPred_of_leaf hm] at hp; cases hp

/-- Witness for the amended claim C3: a concrete index with one unresolvable
child is moved to the delete set. -/
theorem claim_C3_amended_witness :
    "sha256:x" ∈ (deletePartialImages
      { remote := { packages := [⟨1, "sha256:x", [], none⟩,
                                 ⟨2, "sha256:k", [], none⟩],
                    manifests := [("sha256:x", Manifest.index ["sha256:k", "sha256:m"])] },
        pkgs := [⟨1, "sha256:x", [], none⟩, ⟨2, "sha256:k", [], none⟩],
        filterSet := ["sha256:x"], deleteSet := [], tagsInUse := [],
        digestUsedBy := [], deleted := [], excludeTags := [],
        numberImagesDeleted := 0, numberMultiImagesDeleted := 0,
        deletions := [] }).deleteSet :=
  ((claim_C3_amended
      { remote := { packages := [⟨1, "sha256:x", [], none⟩,
                                 ⟨2, "sha256:k", [], none⟩],
                    manifests := [("sha256:x", Manifest.index ["sha256:k", "sha256:m"])] },
        pkgs := [⟨1, "sha256:x", [], none⟩, ⟨2, "sha256:k", [], none⟩],
        filterSet := ["sha256:x"], deleteSet := [], tagsInUse := [],
        digestUsedBy := [], deleted := [], excludeTags := [],
        numberImagesDeleted := 0, numberMultiImagesDeleted := 0,
        deletions := [] }
      "sha256:x" (by decide) (by decide) (by decide)).1.mpr
    ⟨["sha256:k", "sha256:m"], by decide, "sha256:m", by decide, by decide⟩).1

/-- Claim C10: a filter set digest whose manifest is an index with an empty
child list is moved to the delete set by `deleteGhostImages` (the
all-children-missing count is vacuously met) and is left in the filter set by
`deletePartialImages`. -/
theorem claim_C10 (st : St) (X : String)
    (hnd : st.filterSet.Nodup) (hX : X ∈ st.filterSet) (hXd : X ∉ st.deleteSet)
    (hm : getManifestByDigest st.remote X = some (Manifest.index [])) :
    (X ∈ (deleteGhostImages st).deleteSet ∧ X ∉ (deleteGhostImages st).filterSet) ∧
    (X ∈ (deletePartialImages st).filterSet ∧ X ∉ (deletePartialImages st).deleteSet) := by
  have hg : ghostPred st.remote st.pkgs X = true := by
    rw [ghostPred_of_index hm]; rfl
  have hp : partialPred st.remote st.pkgs X = false := by
    rw [partialPred_of_index hm]; rfl
  refine ⟨⟨?_, ?_⟩, ?_, ?_⟩
  · exact (mem_moveLoop_deleteSet ghostPred st hnd X).mpr (Or.inr ⟨hX, hg⟩)
  · intro hmem
    exact ((mem_moveLoop_filterSet ghostPred st hnd X).mp hmem).2 hg
  · exact (mem_moveLoop_filterSet partialPred st hnd X).mpr ⟨hX, by rw [hp]; simp⟩
  · intro hmem
    rcases (mem_moveLoop_deleteSet partialPred st hnd X).mp hmem with h | ⟨-, h⟩
    · exact hXd h
    · rw [hp] at h; cases h

/-- Witness for claim C10 at a concrete empty-index state. -/
theorem claim_C10_witness :
    "sha256:e" ∈ (deleteGhostImages
      { remote := { packages := [⟨1, "sha256:e", [], none⟩],
                    manifests := [("sha256:e", Manifest.index [])] },
        pkgs := [⟨1, "sha256:e", [], none⟩],
        filterSet := ["sha256:e"], deleteSet := [], tagsInUse := [],
        digestUsedBy := [], deleted := [], excludeTags := [],
        numberImagesDeleted := 0, numberMultiImagesDeleted := 0,
        deletions := [] }).deleteSet :=
  (claim_C10
      { remote := { packages := [⟨1, "sha256:e", [], none⟩],
                    manifests := [("sha256:e", Manifest.index [])] },
        pkgs := [⟨1, "sha256:e", [], none⟩],
        filterSet := ["sha256:e"], deleteSet := [], tagsInUse := [],
        digestUsedBy := [], deleted := [], excludeTags := [],
        numberImagesDeleted := 0, numberMultiImagesDeleted := 0,
        deletions := [] }
      "sha256:e" (by decide) (by decide) (by decide) (by decide)).1.1

/-! ## Cascade lemmas -/

theorem DeleteFrame.refl (s : St) : DeleteFrame s s :=
  ⟨rfl, rfl, rfl, rfl, rfl, rfl, fun _ hx => hx⟩

theorem DeleteFrame.trans {s t u : St} (h1 : DeleteFrame s t)
    (h2 : DeleteFrame t u) : DeleteFrame s u :=
  ⟨h2.pkgs_eq.trans h1.pkgs_eq, h2.manifests_eq.trans h1.manifests_eq,
   h2.filterSet_eq.trans h1.filterSet_eq, h2.deleteSet_eq.trans h1.deleteSet_eq,
   h2.tagsInUse_eq.trans h1.tagsInUse_eq, h2.excludeTags_eq.trans h1.excludeTags_eq,
   fun x hx => h2.deleted_mono x (h1.deleted_mono x hx)⟩

theorem getPackageByDigest_name {pkgs : List PackageVersion} {d : String}
    {p : PackageVersion} (h : getPackageByDigest pkgs d = some p) : p.name = d := by
  have := List.find?_some h
  simpa using this

theorem deleteChildStep_frame (n : String) (s : St) (c : String) :
    DeleteFrame s (deleteChildStep n s c) := by
  rcases hm : getPackageByDigest s.pkgs c with _ | p
  · simp only [deleteChildStep, hm]
    exact DeleteFrame.refl s
  · by_cases hdel : p.name ∈ s.deleted
    · simp only [deleteChildStep, hm]
      rw [if_pos hdel]
      exact DeleteFrame.refl s
    · rcases hlu : lookupUsedBy s.digestUsedBy p.name with _ | parents
      · simp only [deleteChildStep, hm, hlu]
        rw [if_neg hdel]
        exact DeleteFrame.refl s
      · by_cases hpar : ((parents.length == 1) = true ∧ n ∈ parents)
        · simp only [deleteChildStep, hm, hlu]
          rw [if_neg hdel, if_pos hpar]
          exact ⟨rfl, rfl, rfl, rfl, rfl, rfl, fun x hx => mem_of_mem_insertSet hx⟩
        · simp only [deleteChildStep, hm, hlu]
          rw [if_neg hdel, if_neg hpar]
          exact ⟨rfl, rfl, rfl, rfl, rfl, rfl, fun _ hx => hx⟩

theorem deleteChildStep_deleted_bound (n : String) (s : St) (c : String) :
    ∀ x ∈ (deleteChildStep n s c).deleted, x ∈ s.deleted ∨ x = c := by
  rcases hm : getPackageByDigest s.pkgs c with _ | p
  · simp only [deleteChildStep, hm]
    exact fun x hx => Or.inl hx
  · have hp := getPackageByDigest_name hm
    by_cases hdel : p.name ∈ s.deleted
    · simp only [deleteChildStep, hm]
      rw [if_pos hdel]
      exact fun x hx => Or.inl hx
    · rcases hlu : lookupUsedBy s.digestUsedBy p.name with _ | parents
      · simp only [deleteChildStep, hm, hlu]
        rw [if_neg hdel]
        exact fun x hx => Or.inl hx
      · by_cases hpar : ((parents.length == 1) = true ∧ n ∈ parents)
        · simp only [deleteChildStep, hm, hlu]
          rw [if_neg hdel, if_pos hpar]
          intro x hx
          rcases mem_insertSet.mp hx with hx | rfl
          · exact Or.inl hx
          · exact Or.inr hp
        · simp only [deleteChildStep, hm, hlu]
          rw [if_neg hdel, if_neg hpar]
          exact fun x hx => Or.inl hx

theorem foldl_deleteFrame {α : Type} {f : St → α → St}
    (h : ∀ s x, DeleteFrame s (f s x)) :
    ∀ (l : List α) (s : St), DeleteFrame s (l.foldl f s)
  | [], s => DeleteFrame.refl s
  | x :: t, s => (h s x).trans (foldl_deleteFrame h t (f s x))

theorem deleteChildFold_deleted_bound (n : String) :
    ∀ (children : List String) (s : St),
      ∀ x ∈ (children.foldl (deleteChildStep n) s).deleted,
        x ∈ s.deleted ∨ x ∈ children
  | [], s, x, hx => Or.inl hx
  | c :: t, s, x, hx => by
    rw [List.foldl_cons] at hx
    rcases deleteChildFold_deleted_bound n t (deleteChildStep n s c) x hx with h | h
    · rcases deleteChildStep_deleted_bound n s c x h with h | rfl
      · exact Or.inl h
      · exact Or.inr (List.mem_cons_self _ _)
    · exact Or.inr (List.mem_cons_of_mem _ h)

theorem deleteImageChildren_frame (n : String) (m : Manifest) (st : St) :
    DeleteFrame st (deleteImageChildren n m st) := by
  unfold deleteImageChildren
  cases m with
  | leaf ls => exact DeleteFrame.refl st
  | index children =>
    refine DeleteFrame.trans (s := st)
      (t := { st with numberMultiImagesDeleted := st.numberMultiImagesDeleted + 1 }) ?_ ?_
    · exact ⟨rfl, rfl, rfl, rfl, rfl, rfl, fun _ hx => hx⟩
    · exact foldl_deleteFrame (deleteChildStep_frame n) children _

theorem deleteImageChildren_deleted_bound (n : String) (m : Manifest) (st : St) :
    ∀ x ∈ (deleteImageChildren n m st).deleted,
      x ∈ st.deleted ∨ ∃ children, m = Manifest.index children ∧ x ∈ children := by
  unfold deleteImageChildren
  cases m with
  | leaf ls => exact fun x hx => Or.inl hx
  | index children =>
    intro x hx
    rcases deleteChildFold_deleted_bound n children _ x hx with h | h
    · exact Or.inl h
    · exact Or.inr ⟨children, rfl, h⟩

theorem deleteImageReferrer_frame {recurse : St → PackageVersion → St}
    (hrec : ∀ s p, DeleteFrame s (recurse s p)) (n : String) (st : St) :
    DeleteFrame st (deleteImageReferrer recurse n st) := by
  by_cases htag : (referrerTagOf n ∈ st.tagsInUse ∧ referrerTagOf n ∉ st.excludeTags)
  · rcases hd : getTagDigest st.remote (referrerTagOf n) with _ | md
    · simp only [deleteImageReferrer, hd]
      rw [if_pos htag]
      exact DeleteFrame.refl st
    · rcases hp : getPackageByDigest st.pkgs md with _ | att
      · simp only [deleteImageReferrer, hd, hp]
        rw [if_pos htag]
        exact DeleteFrame.refl st
      · simp only [deleteImageReferrer, hd, hp]
        rw [if_pos htag]
        exact hrec st att
  · simp only [deleteImageReferrer]
    rw [if_neg htag]
    exact DeleteFrame.refl st

theorem deleteImage_frame : ∀ (fuel : Nat) (st : St) (pkg : PackageVersion),
    DeleteFrame st (deleteImage fuel st pkg)
  | 0, st, _ => DeleteFrame.refl st
  | fuel + 1, st, pkg => by
    unfold deleteImage
    split
    · exact DeleteFrame.refl st
    · cases hm : getManifestByDigest st.remote pkg.name with
      | none => exact DeleteFrame.refl st
      | some manifest =>
        refine DeleteFrame.trans (t := { deletePackageVersion st pkg.id pkg.name with
          deleted := insertSet (deletePackageVersion st pkg.id pkg.name).deleted pkg.name,
          numberImagesDeleted := (deletePackageVersion st pkg.id pkg.name).numberImagesDeleted + 1 }) ?_ ?_
        · exact ⟨rfl, rfl, rfl, rfl, rfl, rfl, fun x hx => mem_of_mem_insertSet hx⟩
        · exact DeleteFrame.trans (deleteImageChildren_frame pkg.name manifest _)
            (deleteImageReferrer_frame (fun s p => deleteImage_frame fuel s p) pkg.name _)

theorem deleteImage_of_deleted {fuel : Nat} {st : St} {pkg : PackageVersion}
    (h : pkg.name ∈ st.deleted) : deleteImage fuel st pkg = st := by
  cases fuel with
  | zero => rfl
  | succ f => unfold deleteImage; rw [if_pos h]

theorem deleteImage_self_deleted (fuel : Nat) (st : St) (pkg : PackageVersion)
    (h : getManifestByDigest st.remote pkg.name ≠ none ∨ pkg.name ∈ st.deleted) :
    pkg.name ∈ (deleteImage (fuel + 1) st pkg).deleted := by
  unfold deleteImage
  split
  · next hdel => exact hdel
  · next hdel =>
    cases hm : getManifestByDigest st.remote pkg.name with
    | none =>
      rcases h with h | h
      · exact absurd hm h
      · exact absurd h hdel
    | some manifest =>
      have h1 : pkg.name ∈ (insertSet (deletePackageVersion st pkg.id pkg.name).deleted pkg.name) :=
        self_mem_insertSet _ _
      have h2 := (deleteImageChildren_frame pkg.name manifest
        { deletePackageVersion st pkg.id pkg.name with
          deleted := insertSet (deletePackageVersion st pkg.id pkg.name).deleted pkg.name,
          numberImagesDeleted := (deletePackageVersion st pkg.id pkg.name).numberImagesDeleted + 1 }).deleted_mono
      have h3 := (deleteImageReferrer_frame (fun s p => deleteImage_frame fuel s p)
        pkg.name (deleteImageChildren pkg.name manifest
          { deletePackageVersion st pkg.id pkg.name with
            deleted := insertSet (deletePackageVersion st pkg.id pkg.name).deleted pkg.name,
            numberImagesDeleted := (deletePackageVersion st pkg.id pkg.name).numberImagesDeleted + 1 })).deleted_mono
      exact h3 _ (h2 _ h1)

theorem doDeleteStep_frame (fuel : Nat) (s : St) (d : String) :
    DeleteFrame s (doDeleteStep fuel s d) := by
  rcases hp : getPackageByDigest s.pkgs d with _ | p
  · simp only [doDeleteStep, hp]
    exact DeleteFrame.refl s
  · simp only [doDeleteStep, hp]
    exact deleteImage_frame fuel s p

theorem doDeleteStep_of_deleted {fuel : Nat} {s : St} {d : String}
    (h : d ∈ s.deleted) : doDeleteStep fuel s d = s := by
  rcases hp : getPackageByDigest s.pkgs d with _ | p
  · simp only [doDeleteStep, hp]
  · simp only [doDeleteStep, hp]
    exact deleteImage_of_deleted (by rw [getPackageByDigest_name hp]; exact h)

/-- Each `doDelete` iteration on a digest is either an identity on every
state with the same snapshot and manifest store, or it leaves the digest in
the deleted set. -/
theorem doDeleteStep_classify (fuel : Nat) (pkgs0 : List PackageVersion)
    (mans0 : List (String × Manifest)) (d : String) :
    (∀ s : St, s.pkgs = pkgs0 → s.remote.manifests = mans0 →
      doDeleteStep fuel s d = s) ∨
    (∀ s : St, s.pkgs = pkgs0 → s.remote.manifests = mans0 →
      d ∈ (doDeleteStep fuel s d).deleted) := by
  rcases hp : getPackageByDigest pkgs0 d with _ | p
  · left
    intro s hs _
    simp only [doDeleteStep, hs, hp]
  · cases fuel with
    | zero =>
      left
      intro s hs _
      simp only [doDeleteStep, hs, hp, deleteImage]
    | succ f =>
      rcases hm : mans0.find? (fun e => e.fst == p.name) with _ | e
      · left
        intro s hs hms
        have hmd : getManifestByDigest s.remote p.name = none := by
          unfold getManifestByDigest
          rw [hms, hm]
          rfl
        simp only [doDeleteStep, hs, hp]
        by_cases hdel : p.name ∈ s.deleted
        · exact deleteImage_of_deleted hdel
        · unfold deleteImage
          rw [if_neg hdel, hmd]
      · right
        intro s hs hms
        have hmd : getManifestByDigest s.remote p.name = some e.snd := by
          unfold getManifestByDigest
          rw [hms, hm]
          rfl
        have hname := getPackageByDigest_name hp
        simp only [doDeleteStep, hs, hp]
        rw [← hname]
        exact deleteImage_self_deleted f s p (Or.inl (by rw [hmd]; simp))

theorem doDeleteFold_deleted (fuel : Nat) :
    ∀ (l : List String) (s : St) (d : String), d ∈ l →
      (∀ s' : St, s'.pkgs = s.pkgs → s'.remote.manifests = s.remote.manifests →
        doDeleteStep fuel s' d = s') ∨
      d ∈ (l.foldl (doDeleteStep fuel) s).deleted := by
  intro l
  induction l with
  | nil => intro s d hd; cases hd
  | cons c t ih =>
    intro s d hd
    rw [List.foldl_cons]
    rcases List.mem_cons.mp hd with rfl | hdt
    · rcases doDeleteStep_classify fuel s.pkgs s.remote.manifests d with h | h
      · exact Or.inl h
      · right
        have h1 : d ∈ (doDeleteStep fuel s d).deleted := h s rfl rfl
        exact (foldl_deleteFrame (doDeleteStep_frame fuel) t
          (doDeleteStep fuel s d)).deleted_mono d h1
    · rcases ih (doDeleteStep fuel s c) d hdt with h | h
      · left
        intro s' h1 h2
        refine h s' ?_ ?_
        · rw [h1, (doDeleteStep_frame fuel s c).pkgs_eq]
        · rw [h2, (doDeleteStep_frame fuel s c).manifests_eq]
      · exact Or.inr h

theorem doDeleteFold_id (fuel : Nat) :
    ∀ (l : List String) (s : St),
      (∀ d ∈ l,
        (∀ s' : St, s'.pkgs = s.pkgs → s'.remote.manifests = s.remote.manifests →
          doDeleteStep fuel s' d = s') ∨ d ∈ s.deleted) →
      l.foldl (doDeleteStep fuel) s = s := by
  intro l
  induction l with
  | nil => intro s _; rfl
  | cons c t ih =>
    intro s h
    rw [List.foldl_cons]
    have hc : doDeleteStep fuel s c = s := by
      rcases h c (List.mem_cons_self c t) with h1 | h1
      · exact h1 s rfl rfl
      · exact doDeleteStep_of_deleted h1
    rw [hc]
    exact ih s (fun d hd => h d (List.mem_cons_of_mem c hd))

/-! ## Claim theorem: idempotence of the deletion cascade -/

/-- Claim C5: invoking `doDelete` a second time on the same delete set,
without an intervening reload, is an identity — no digest is deleted a second
time and the two counters (and everything else in the state) are unchanged —
and `deleteImage` on a package whose digest is already in the deleted set
performs no deletion and no counter increment. -/
theorem claim_C5 (fuel : Nat) (st : St) :
    doDelete fuel (doDelete fuel st) = doDelete fuel st ∧
    (∀ pkg : PackageVersion, pkg.name ∈ st.deleted → deleteImage fuel st pkg = st) := by
  constructor
  · have hframe : DeleteFrame st (doDelete fuel st) :=
      foldl_deleteFrame (doDeleteStep_frame fuel) st.deleteSet st
    show (doDelete fuel st).deleteSet.foldl (doDeleteStep fuel) (doDelete fuel st) =
      doDelete fuel st
    apply doDeleteFold_id
    intro d hd
    rw [hframe.deleteSet_eq] at hd
    rcases doDeleteFold_deleted fuel st.deleteSet st d hd with h | h
    · left
      intro s' h1 h2
      exact h s' (h1.trans hframe.pkgs_eq) (h2.trans hframe.manifests_eq)
    · exact Or.inr h
  · exact fun pkg h => deleteImage_of_deleted h

/-- Witness for claim C5: an already-deleted digest is skipped by
`deleteImage` at a concrete state. -/
theorem claim_C5_witness :
    ("sha256:a" ∈ (["sha256:a"] : List String)) ∧
    deleteImage 1
      { remote := { packages := [], manifests := [] }, pkgs := [],
        filterSet := [], deleteSet := ["sha256:a"], tagsInUse := [],
        digestUsedBy := [], deleted := ["sha256:a"], excludeTags := [],
        numberImagesDeleted := 1, numberMultiImagesDeleted := 0,
        deletions := ["sha256:a"] }
      ⟨7, "sha256:a", [], none⟩ =
      { remote := { packages := [], manifests := [] }, pkgs := [],
        filterSet := [], deleteSet := ["sha256:a"], tagsInUse := [],
        digestUsedBy := [], deleted := ["sha256:a"], excludeTags := [],
        numberImagesDeleted := 1, numberMultiImagesDeleted := 0,
        deletions := ["sha256:a"] } :=
  ⟨by decide,
   (claim_C5 1
      { remote := { packages := [], manifests := [] }, pkgs := [],
        filterSet := [], deleteSet := ["sha256:a"], tagsInUse := [],
        digestUsedBy := [], deleted := ["sha256:a"], excludeTags := [],
        numberImagesDeleted := 1, numberMultiImagesDeleted := 0,
        deletions := ["sha256:a"] }).2
     ⟨7, "sha256:a", [], none⟩ (by decide)⟩

/-! ## Reference map lemmas -/

theorem lookupUsedBy_cons_of_pos {e : String × List String}
    {t : List (String × List String)} {c : String} (h : (e.fst == c) = true) :
    lookupUsedBy (e :: t) c = some e.snd := by
  unfold lookupUsedBy
  rw [List.find?_cons_of_pos (p := fun e => e.fst == c) t h]
  rfl

theorem lookupUsedBy_cons_of_neg {e : String × List String}
    {t : List (String × List String)} {c : String} (h : (e.fst == c) = false) :
    lookupUsedBy (e :: t) c = lookupUsedBy t c := by
  unfold lookupUsedBy
  rw [List.find?_cons_of_neg _ (by rw [h]; exact Bool.false_ne_true)]

theorem lookupUsedBy_eraseUsedBy_self (m : List (String × List String))
    (c : String) : lookupUsedBy (eraseUsedBy m c) c = none := by
  induction m with
  | nil => rfl
  | cons e t ih =>
    show lookupUsedBy (List.filter (fun e => e.fst != c) (e :: t)) c = none
    rw [List.filter_cons]
    cases hb : (e.fst == c) with
    | true =>
      rw [show (e.fst != c) = false by simp [bne, hb], if_neg Bool.false_ne_true]
      exact ih
    | false =>
      rw [show (e.fst != c) = true by simp [bne, hb], if_pos rfl,
        lookupUsedBy_cons_of_neg hb]
      exact ih

theorem lookupUsedBy_eraseUsedBy_ne (m : List (String × List String))
    {c d : String} (h : c ≠ d) :
    lookupUsedBy (eraseUsedBy m d) c = lookupUsedBy m c := by
  induction m with
  | nil => rfl
  | cons e t ih =>
    show lookupUsedBy (List.filter (fun e => e.fst != d) (e :: t)) c = _
    rw [List.filter_cons]
    cases hb : (e.fst == d) with
    | true =>
      have hec : (e.fst == c) = false := by
        rw [show e.fst = d by simpa using hb]
        exact beq_eq_false_iff_ne.mpr (Ne.symm h)
      rw [show (e.fst != d) = false by simp [bne, hb], if_neg Bool.false_ne_true,
        lookupUsedBy_cons_of_neg hec]
      exact ih
    | false =>
      rw [show (e.fst != d) = true by simp [bne, hb], if_pos rfl]
      cases hec : (e.fst == c) with
      | true => rw [lookupUsedBy_cons_of_pos hec, lookupUsedBy_cons_of_pos hec]
      | false =>
        rw [lookupUsedBy_cons_of_neg hec, lookupUsedBy_cons_of_neg hec]
        exact ih

theorem lookupUsedBy_setUsedBy_ne (m : List (String × List String))
    {c d : String} (ps : List String) (h : c ≠ d) :
    lookupUsedBy (setUsedBy m d ps) c = lookupUsedBy m c := by
  induction m with
  | nil => rfl
  | cons e t ih =>
    show lookupUsedBy
      ((if (e.fst == d) = true then (e.fst, ps) else e) ::
        List.map (fun e => if (e.fst == d) = true then (e.fst, ps) else e) t) c = _
    cases hb : (e.fst == d) with
    | true =>
      have hec : (e.fst == c) = false := by
        rw [show e.fst = d by simpa using hb]
        exact beq_eq_false_iff_ne.mpr (Ne.symm h)
      rw [if_pos rfl, lookupUsedBy_cons_of_neg (by exact hec),
        lookupUsedBy_cons_of_neg hec]
      exact ih
    | false =>
      rw [if_neg Bool.false_ne_true]
      cases hec : (e.fst == c) with
      | true => rw [lookupUsedBy_cons_of_pos hec, lookupUsedBy_cons_of_pos hec]
      | false =>
        rw [lookupUsedBy_cons_of_neg hec, lookupUsedBy_cons_of_neg hec]
        exact ih

theorem lookupUsedBy_setUsedBy_self (m : List (String × List String))
    {c : String} {v : List String} (ps : List String)
    (h : lookupUsedBy m c = some v) :
    lookupUsedBy (setUsedBy m c ps) c = some ps := by
  induction m with
  | nil => cases h
  | cons e t ih =>
    show lookupUsedBy
      ((if (e.fst == c) = true then (e.fst, ps) else e) ::
        List.map (fun e => if (e.fst == c) = true then (e.fst, ps) else e) t) c = _
    cases hb : (e.fst == c) with
    | true =>
      rw [if_pos rfl, lookupUsedBy_cons_of_pos (by exact hb)]
    | false =>
      rw [if_neg Bool.false_ne_true, lookupUsedBy_cons_of_neg hb]
      rw [lookupUsedBy_cons_of_neg hb] at h
      exact ih h

theorem getManifestByDigest_ext {r1 r2 : Remote} (h : r1.manifests = r2.manifests)
    (d : String) : getManifestByDigest r1 d = getManifestByDigest r2 d := by
  unfold getManifestByDigest
  rw [h]

theorem deleteImageReferrer_skip (recurse : St → PackageVersion → St) (n : String)
    (st : St) (h : referrerTagOf n ∉ st.tagsInUse) :
    deleteImageReferrer recurse n st = st := by
  simp only [deleteImageReferrer]
  rw [if_neg (fun hc => h hc.1)]

/-- Effect of one child-loop iteration on a different child digest: its
reference map entry, deleted status and deletion log membership are
untouched. -/
theorem deleteChildStep_other (n : String) (s : St) {D C : String} (hne : D ≠ C) :
    lookupUsedBy (deleteChildStep n s D).digestUsedBy C = lookupUsedBy s.digestUsedBy C ∧
    (C ∈ (deleteChildStep n s D).deleted ↔ C ∈ s.deleted) ∧
    (C ∈ (deleteChildStep n s D).deletions ↔ C ∈ s.deletions) := by
  rcases hm : getPackageByDigest s.pkgs D with _ | p
  · have hstep : deleteChildStep n s D = s := by simp only [deleteChildStep, hm]
    rw [hstep]
    exact ⟨rfl, Iff.rfl, Iff.rfl⟩
  · have hp := getPackageByDigest_name hm
    have hpC : C ≠ p.name := by rw [hp]; exact fun hc => hne hc.symm
    by_cases hdel : p.name ∈ s.deleted
    · have hstep : deleteChildStep n s D = s := by
        simp only [deleteChildStep, hm]
        rw [if_pos hdel]
      rw [hstep]
      exact ⟨rfl, Iff.rfl, Iff.rfl⟩
    · rcases hlu : lookupUsedBy s.digestUsedBy p.name with _ | parents
      · have hstep : deleteChildStep n s D = s := by
          simp only [deleteChildStep, hm, hlu]
          rw [if_neg hdel]
        rw [hstep]
        exact ⟨rfl, Iff.rfl, Iff.rfl⟩
      · by_cases hpar : ((parents.length == 1) = true ∧ n ∈ parents)
        · have hstep : deleteChildStep n s D =
              { s with
                remote := { s.remote with
                  packages := s.remote.packages.filter (fun q => q.id != p.id) },
                deletions := s.deletions ++ [p.name],
                deleted := insertSet s.deleted p.name,
                numberImagesDeleted := s.numberImagesDeleted + 1,
                digestUsedBy := eraseUsedBy s.digestUsedBy p.name } := by
            simp only [deleteChildStep, hm, hlu]
            rw [if_neg hdel, if_pos hpar]
            rfl
          rw [hstep]
          refine ⟨lookupUsedBy_eraseUsedBy_ne _ hpC, ?_, ?_⟩
          · show C ∈ insertSet s.deleted p.name ↔ C ∈ s.deleted
            rw [mem_insertSet]
            constructor
            · rintro (h | h)
              · exact h
              · exact absurd h hpC
            · exact fun h => Or.inl h
          · show C ∈ s.deletions ++ [p.name] ↔ C ∈ s.deletions
            rw [List.mem_append]
            constructor
            · rintro (h | h)
              · exact h
              · exact absurd (List.mem_singleton.mp h) hpC
            · exact fun h => Or.inl h
        · have hstep : deleteChildStep n s D =
              { s with digestUsedBy :=
                  setUsedBy s.digestUsedBy p.name (parents.erase n) } := by
            simp only [deleteChildStep, hm, hlu]
            rw [if_neg hdel, if_neg hpar]
          rw [hstep]
          exact ⟨lookupUsedBy_setUsedBy_ne _ _ hpC, Iff.rfl, Iff.rfl⟩

theorem deleteChildStep_skip (n : String) (s : St) {C : String} {pc : PackageVersion}
    (hfind : getPackageByDigest s.pkgs C = some pc) (hdel : C ∈ s.deleted) :
    deleteChildStep n s C = s := by
  have hp := getPackageByDigest_name hfind
  simp only [deleteChildStep, hfind]
  rw [if_pos (by rw [hp]; exact hdel)]

theorem deleteChildStep_hit_keep (n : String) (s : St) {C : String}
    {pc : PackageVersion} {parents : List String}
    (hfind : getPackageByDigest s.pkgs C = some pc)
    (hdel : C ∉ s.deleted)
    (hlu : lookupUsedBy s.digestUsedBy C = some parents)
    (hcond : ¬((parents.length == 1) = true ∧ n ∈ parents)) :
    deleteChildStep n s C =
      { s with digestUsedBy := setUsedBy s.digestUsedBy C (parents.erase n) } := by
  have hp := getPackageByDigest_name hfind
  simp only [deleteChildStep, hfind, hp, hlu]
  rw [if_neg hdel, if_neg hcond]

theorem deleteChildStep_hit_kill (n : String) (s : St) {C : String}
    {pc : PackageVersion} {parents : List String}
    (hfind : getPackageByDigest s.pkgs C = some pc)
    (hdel : C ∉ s.deleted)
    (hlu : lookupUsedBy s.digestUsedBy C = some parents)
    (hcond : (parents.length == 1) = true ∧ n ∈ parents) :
    deleteChildStep n s C =
      { s with
        remote := { s.remote with
          packages := s.remote.packages.filter (fun p => p.id != pc.id) },
        deletions := s.deletions ++ [C],
        deleted := insertSet s.deleted C,
        numberImagesDeleted := s.numberImagesDeleted + 1,
        digestUsedBy := eraseUsedBy s.digestUsedBy C } := by
  have hp := getPackageByDigest_name hfind
  simp only [deleteChildStep, hfind, hp, hlu]
  rw [if_neg hdel, if_pos hcond]
  rfl

/-- Phase A of the reference counting argument: folding the child loop of the
first parent over its child list turns the shared child's two-parent entry
into the single remaining parent, without deleting the child. -/
theorem C1_foldA (P1name P2name C : String) (pc : PackageVersion)
    (hne : P1name ≠ P2name) :
    ∀ (l : List String) (s : St),
      getPackageByDigest s.pkgs C = some pc →
      C ∉ s.deleted → C ∉ s.deletions →
      (lookupUsedBy s.digestUsedBy C = some [P1name, P2name] ∨
       lookupUsedBy s.digestUsedBy C = some [P2name, P1name] ∨
       lookupUsedBy s.digestUsedBy C = some [P2name]) →
      (getPackageByDigest (l.foldl (deleteChildStep P1name) s).pkgs C = some pc ∧
       C ∉ (l.foldl (deleteChildStep P1name) s).deleted ∧
       C ∉ (l.foldl (deleteChildStep P1name) s).deletions ∧
       (lookupUsedBy (l.foldl (deleteChildStep P1name) s).digestUsedBy C = some [P2name] ∨
        (C ∉ l ∧ lookupUsedBy (l.foldl (deleteChildStep P1name) s).digestUsedBy C =
          lookupUsedBy s.digestUsedBy C))) := by
  intro l
  induction l with
  | nil =>
    intro s hfind hdel hdels hlu
    exact ⟨hfind, hdel, hdels, Or.inr ⟨List.not_mem_nil C, rfl⟩⟩
  | cons D t ih =>
    intro s hfind hdel hdels hlu
    rw [List.foldl_cons]
    by_cases hDC : D = C
    · subst hDC
      have main : ∀ ps, lookupUsedBy s.digestUsedBy D = some ps →
          (ps = [P1name, P2name] ∨ ps = [P2name, P1name] ∨ ps = [P2name]) →
          (getPackageByDigest (t.foldl (deleteChildStep P1name)
              (deleteChildStep P1name s D)).pkgs D = some pc ∧
           D ∉ (t.foldl (deleteChildStep P1name) (deleteChildStep P1name s D)).deleted ∧
           D ∉ (t.foldl (deleteChildStep P1name) (deleteChildStep P1name s D)).deletions ∧
           (lookupUsedBy (t.foldl (deleteChildStep P1name)
              (deleteChildStep P1name s D)).digestUsedBy D = some [P2name] ∨
            (D ∉ D :: t ∧ lookupUsedBy (t.foldl (deleteChildStep P1name)
              (deleteChildStep P1name s D)).digestUsedBy D =
              lookupUsedBy s.digestUsedBy D))) := by
        intro ps hps hcases
        have hcond : ¬((ps.length == 1) = true ∧ P1name ∈ ps) := by
          rcases hcases with rfl | rfl | rfl
          · rintro ⟨h1, -⟩; simp at h1
          · rintro ⟨h1, -⟩; simp at h1
          · rintro ⟨-, h2⟩
            exact hne (List.mem_singleton.mp h2)
        have hps_erase : ps.erase P1name = [P2name] := by
          rcases hcases with rfl | rfl | rfl
          · rw [List.erase_cons_head]
          · simp [List.erase_cons, Ne.symm hne]
          · simp [List.erase_cons, Ne.symm hne]
        have hstep : deleteChildStep P1name s D =
            { s with digestUsedBy := setUsedBy s.digestUsedBy D [P2name] } := by
          rw [deleteChildStep_hit_keep P1name s hfind hdel hps hcond, hps_erase]
        rw [hstep]
        rcases ih { s with digestUsedBy := setUsedBy s.digestUsedBy D [P2name] }
          hfind hdel hdels
          (Or.inr (Or.inr (lookupUsedBy_setUsedBy_self s.digestUsedBy [P2name] hps)))
          with ⟨r1, r2, r3, r4⟩
        refine ⟨r1, r2, r3, Or.inl ?_⟩
        rcases r4 with r4 | ⟨-, r4⟩
        · exact r4
        · rw [r4]
          exact lookupUsedBy_setUsedBy_self s.digestUsedBy [P2name] hps
      rcases hlu with h | h | h
      · exact main _ h (Or.inl rfl)
      · exact main _ h (Or.inr (Or.inl rfl))
      · exact main _ h (Or.inr (Or.inr rfl))
    · have hother := deleteChildStep_other P1name s (C := C) hDC
      have hframe := deleteChildStep_frame P1name s D
      rcases ih (deleteChildStep P1name s D)
        (by rw [hframe.pkgs_eq]; exact hfind)
        (fun hc => hdel (hother.2.1.mp hc))
        (fun hc => hdels (hother.2.2.mp hc))
        (by rw [hother.1]; exact hlu)
        with ⟨r1, r2, r3, r4⟩
      refine ⟨r1, r2, r3, ?_⟩
      rcases r4 with r4 | ⟨hnt, r4⟩
      · exact Or.inl r4
      · refine Or.inr ⟨?_, ?_⟩
        · intro hc
          rcases List.mem_cons.mp hc with rfl | hc
          · exact hDC rfl
          · exact hnt hc
        · rw [r4, hother.1]

/-- After the shared child has been physically deleted, the rest of the child
loop leaves it deleted with no reference map entry. -/
theorem C1_foldB2 (n C : String) (pc : PackageVersion) :
    ∀ (l : List String) (s : St),
      getPackageByDigest s.pkgs C = some pc →
      C ∈ s.deleted → C ∈ s.deletions →
      lookupUsedBy s.digestUsedBy C = none →
      (C ∈ (l.foldl (deleteChildStep n) s).deleted ∧
       C ∈ (l.foldl (deleteChildStep n) s).deletions ∧
       lookupUsedBy (l.foldl (deleteChildStep n) s).digestUsedBy C = none) := by
  intro l
  induction l with
  | nil => exact fun s _ h1 h2 h3 => ⟨h1, h2, h3⟩
  | cons D t ih =>
    intro s hfind hdel hdels hlu
    rw [List.foldl_cons]
    by_cases hDC : D = C
    · subst hDC
      rw [deleteChildStep_skip n s hfind hdel]
      exact ih s hfind hdel hdels hlu
    · have hother := deleteChildStep_other n s (C := C) hDC
      have hframe := deleteChildStep_frame n s D
      exact ih (deleteChildStep n s D)
        (by rw [hframe.pkgs_eq]; exact hfind)
        (hother.2.1.mpr hdel)
        (hother.2.2.mpr hdels)
        (by rw [hother.1]; exact hlu)

/-- Phase B of the reference counting argument: folding the child loop of the
second (last) parent over its child list physically deletes the shared child
and drops its reference map entry. -/
theorem C1_foldB (P2name C : String) (pc : PackageVersion) :
    ∀ (l : List String) (s : St),
      getPackageByDigest s.pkgs C = some pc →
      C ∉ s.deleted →
      lookupUsedBy s.digestUsedBy C = some [P2name] →
      C ∈ l →
      (C ∈ (l.foldl (deleteChildStep P2name) s).deleted ∧
       C ∈ (l.foldl (deleteChildStep P2name) s).deletions ∧
       lookupUsedBy (l.foldl (deleteChildStep P2name) s).digestUsedBy C = none) := by
  intro l
  induction l with
  | nil => intro s _ _ _ hc; cases hc
  | cons D t ih =>
    intro s hfind hdel hlu hc
    rw [List.foldl_cons]
    by_cases hDC : D = C
    · subst hDC
      have hcond : (([P2name].length == 1) = true ∧ P2name ∈ [P2name]) :=
        ⟨by simp, List.mem_singleton.mpr rfl⟩
      rw [deleteChildStep_hit_kill P2name s hfind hdel hlu hcond]
      refine C1_foldB2 P2name D pc t _ ?_ ?_ ?_ ?_
      · exact hfind
      · exact self_mem_insertSet _ _
      · exact List.mem_append.mpr (Or.inr (List.mem_singleton.mpr rfl))
      · exact lookupUsedBy_eraseUsedBy_self _ _
    · have hother := deleteChildStep_other P2name s (C := C) hDC
      have hframe := deleteChildStep_frame P2name s D
      refine ih (deleteChildStep P2name s D)
        (by rw [hframe.pkgs_eq]; exact hfind)
        (fun hc2 => hdel (hother.2.1.mp hc2))
        (by rw [hother.1]; exact hlu)
        ?_
      rcases List.mem_cons.mp hc with rfl | hc2
      · exact absurd rfl hDC
      · exact hc2

/-- Unfolding `deleteImage` on a not yet deleted index image with no referrer
tag in use: delete the package, mark it, count it, and run the child loop. -/
theorem deleteImage_run {fuel : Nat} {st : St} {pkg : PackageVersion}
    {cs : List String}
    (hdel : pkg.name ∉ st.deleted)
    (hm : getManifestByDigest st.remote pkg.name = some (Manifest.index cs))
    (hatt : referrerTagOf pkg.name ∉ st.tagsInUse) :
    deleteImage (fuel + 1) st pkg =
      cs.foldl (deleteChildStep pkg.name)
        { st with
          remote := { st.remote with
            packages := st.remote.packages.filter (fun p => p.id != pkg.id) },
          deletions := st.deletions ++ [pkg.name],
          deleted := insertSet st.deleted pkg.name,
          numberImagesDeleted := st.numberImagesDeleted + 1,
          numberMultiImagesDeleted := st.numberMultiImagesDeleted + 1 } := by
  unfold deleteImage
  rw [if_neg hdel]
  simp only [hm]
  have htags : (deleteImageChildren pkg.name (Manifest.index cs)
      { deletePackageVersion st pkg.id pkg.name with
        deleted := insertSet (deletePackageVersion st pkg.id pkg.name).deleted pkg.name,
        numberImagesDeleted :=
          (deletePackageVersion st pkg.id pkg.name).numberImagesDeleted + 1 }).tagsInUse
      = st.tagsInUse :=
    (deleteImageChildren_frame pkg.name (Manifest.index cs) _).tagsInUse_eq
  rw [deleteImageReferrer_skip _ _ _ (by rw [htags]; exact hatt)]
  rfl

/-! ## Claim theorem: reference counting -/

/-- Claim C1: for a child digest C recorded in the reference map with exactly
the two parents P1 and P2 (both indexing C in their manifests), `deleteImage`
on P1 does not delete C — C stays out of the deleted set and out of the
deletion log — and leaves C's reference map entry containing exactly P2; only
after `deleteImage` has also run on P2 is C physically deleted and its
reference map entry dropped. The scenario has no referrer tags in use for the
two parents. -/
theorem claim_C1
    (st : St) (P1 P2 : PackageVersion) (C : String) (pc : PackageVersion)
    (cs1 cs2 parents : List String) (f1 f2 : Nat)
    (hm1 : getManifestByDigest st.remote P1.name = some (Manifest.index cs1))
    (hm2 : getManifestByDigest st.remote P2.name = some (Manifest.index cs2))
    (hC1 : C ∈ cs1) (hC2 : C ∈ cs2)
    (hfind : getPackageByDigest st.pkgs C = some pc)
    (hlu : lookupUsedBy st.digestUsedBy C = some parents)
    (hparents : parents = [P1.name, P2.name] ∨ parents = [P2.name, P1.name])
    (hne : P1.name ≠ P2.name) (hCP1 : C ≠ P1.name) (hCP2 : C ≠ P2.name)
    (hCdel : C ∉ st.deleted) (hCdels : C ∉ st.deletions)
    (hP1del : P1.name ∉ st.deleted) (hP2del : P2.name ∉ st.deleted)
    (hP2cs1 : P2.name ∉ cs1)
    (hatt1 : referrerTagOf P1.name ∉ st.tagsInUse)
    (hatt2 : referrerTagOf P2.name ∉ st.tagsInUse) :
    (C ∉ (deleteImage (f1 + 1) st P1).deleted ∧
     C ∉ (deleteImage (f1 + 1) st P1).deletions ∧
     lookupUsedBy (deleteImage (f1 + 1) st P1).digestUsedBy C = some [P2.name]) ∧
    (C ∈ (deleteImage (f2 + 1) (deleteImage (f1 + 1) st P1) P2).deleted ∧
     C ∈ (deleteImage (f2 + 1) (deleteImage (f1 + 1) st P1) P2).deletions ∧
     lookupUsedBy
       (deleteImage (f2 + 1) (deleteImage (f1 + 1) st P1) P2).digestUsedBy C = none) := by
  have hrun1 := @deleteImage_run f1 _ _ _ hP1del hm1 hatt1
  have hB1find : getPackageByDigest
      ({ st with
        remote := { st.remote with
          packages := st.remote.packages.filter (fun p => p.id != P1.id) },
        deletions := st.deletions ++ [P1.name],
        deleted := insertSet st.deleted P1.name,
        numberImagesDeleted := st.numberImagesDeleted + 1,
        numberMultiImagesDeleted := st.numberMultiImagesDeleted + 1 } : St).pkgs C
      = some pc := hfind
  have hB1del : C ∉ insertSet st.deleted P1.name := by
    intro hc
    rcases mem_insertSet.mp hc with hc | hc
    · exact hCdel hc
    · exact hCP1 hc
  have hB1dels : C ∉ st.deletions ++ [P1.name] := by
    intro hc
    rcases List.mem_append.mp hc with hc | hc
    · exact hCdels hc
    · exact hCP1 (List.mem_singleton.mp hc)
  have hA := C1_foldA P1.name P2.name C pc hne cs1 _
    hB1find hB1del hB1dels
    (by
      rcases hparents with h | h
      · exact Or.inl (by rw [← h]; exact hlu)
      · exact Or.inr (Or.inl (by rw [← h]; exact hlu)))
  rw [← hrun1] at hA
  rcases hA with ⟨hA1, hA2, hA3, hA4⟩
  have hlu1 : lookupUsedBy (deleteImage (f1 + 1) st P1).digestUsedBy C = some [P2.name] := by
    rcases hA4 with h | ⟨hnc, -⟩
    · exact h
    · exact absurd hC1 hnc
  refine ⟨⟨hA2, hA3, hlu1⟩, ?_⟩
  -- facts about the state after the first deletion
  have hframe1 : DeleteFrame st (deleteImage (f1 + 1) st P1) := deleteImage_frame _ _ _
  have hP2del1 : P2.name ∉ (deleteImage (f1 + 1) st P1).deleted := by
    intro hc
    rw [hrun1] at hc
    rcases deleteChildFold_deleted_bound P1.name cs1 _ P2.name hc with hc | hc
    · rcases mem_insertSet.mp hc with hc | hc
      · exact hP2del hc
      · exact hne hc.symm
    · exact hP2cs1 hc
  have hm2' : getManifestByDigest (deleteImage (f1 + 1) st P1).remote P2.name
      = some (Manifest.index cs2) := by
    rw [getManifestByDigest_ext hframe1.manifests_eq]
    exact hm2
  have hatt2' : referrerTagOf P2.name ∉ (deleteImage (f1 + 1) st P1).tagsInUse := by
    rw [hframe1.tagsInUse_eq]
    exact hatt2
  have hrun2 := @deleteImage_run f2 _ _ _ hP2del1 hm2' hatt2'
  have hfind1 : getPackageByDigest (deleteImage (f1 + 1) st P1).pkgs C = some pc := by
    rw [hframe1.pkgs_eq]
    exact hfind
  have hB2del : C ∉ insertSet (deleteImage (f1 + 1) st P1).deleted P2.name := by
    intro hc
    rcases mem_insertSet.mp hc with hc | hc
    · exact hA2 hc
    · exact hCP2 hc
  have hB := C1_foldB P2.name C pc cs2
    ({ (deleteImage (f1 + 1) st P1) with
       remote := { (deleteImage (f1 + 1) st P1).remote with
         packages := (deleteImage (f1 + 1) st P1).remote.packages.filter
           (fun p => p.id != P2.id) },
       deletions := (deleteImage (f1 + 1) st P1).deletions ++ [P2.name],
       deleted := insertSet (deleteImage (f1 + 1) st P1).deleted P2.name,
       numberImagesDeleted := (deleteImage (f1 + 1) st P1).numberImagesDeleted + 1,
       numberMultiImagesDeleted :=
         (deleteImage (f1 + 1) st P1).numberMultiImagesDeleted + 1 })
    (by exact hfind1) (by exact hB2del) (by exact hlu1) hC2
  rw [← hrun2] at hB
  exact hB

/-- Witness for claim C1 at a concrete two-parents-one-child state. -/
theorem claim_C1_witness :
    ("sha256:c" ∉ (deleteImage 1
      { remote := { packages := [⟨1, "sha256:p1", [], none⟩, ⟨2, "sha256:p2", [], none⟩,
                                 ⟨3, "sha256:c", [], none⟩],
                    manifests := [("sha256:p1", Manifest.index ["sha256:c"]),
                                  ("sha256:p2", Manifest.index ["sha256:c"]),
                                  ("sha256:c", Manifest.leaf ["l"])] },
        pkgs := [⟨1, "sha256:p1", [], none⟩, ⟨2, "sha256:p2", [], none⟩,
                 ⟨3, "sha256:c", [], none⟩],
        filterSet := ["sha256:p1", "sha256:p2"], deleteSet := [], tagsInUse := [],
        digestUsedBy := [("sha256:c", ["sha256:p1", "sha256:p2"])],
        deleted := [], excludeTags := [], numberImagesDeleted := 0,
        numberMultiImagesDeleted := 0, deletions := [] }
      ⟨1, "sha256:p1", [], none⟩).deleted) ∧
    ("sha256:c" ∈ (deleteImage 1 (deleteImage 1
      { remote := { packages := [⟨1, "sha256:p1", [], none⟩, ⟨2, "sha256:p2", [], none⟩,
                                 ⟨3, "sha256:c", [], none⟩],
                    manifests := [("sha256:p1", Manifest.index ["sha256:c"]),
                                  ("sha256:p2", Manifest.index ["sha256:c"]),
                                  ("sha256:c", Manifest.leaf ["l"])] },
        pkgs := [⟨1, "sha256:p1", [], none⟩, ⟨2, "sha256:p2", [], none⟩,
                 ⟨3, "sha256:c", [], none⟩],
        filterSet := ["sha256:p1", "sha256:p2"], deleteSet := [], tagsInUse := [],
        digestUsedBy := [("sha256:c", ["sha256:p1", "sha256:p2"])],
        deleted := [], excludeTags := [], numberImagesDeleted := 0,
        numberMultiImagesDeleted := 0, deletions := [] }
      ⟨1, "sha256:p1", [], none⟩) ⟨2, "sha256:p2", [], none⟩).deleted) := by
  have h := claim_C1
    { remote := { packages := [⟨1, "sha256:p1", [], none⟩, ⟨2, "sha256:p2", [], none⟩,
                               ⟨3, "sha256:c", [], none⟩],
                  manifests := [("sha256:p1", Manifest.index ["sha256:c"]),
                                ("sha256:p2", Manifest.index ["sha256:c"]),
                                ("sha256:c", Manifest.leaf ["l"])] },
      pkgs := [⟨1, "sha256:p1", [], none⟩, ⟨2, "sha256:p2", [], none⟩,
               ⟨3, "sha256:c", [], none⟩],
      filterSet := ["sha256:p1", "sha256:p2"], deleteSet := [], tagsInUse := [],
      digestUsedBy := [("sha256:c", ["sha256:p1", "sha256:p2"])],
      deleted := [], excludeTags := [], numberImagesDeleted := 0,
      numberMultiImagesDeleted := 0, deletions := [] }
    ⟨1, "sha256:p1", [], none⟩ ⟨2, "sha256:p2", [], none⟩ "sha256:c"
    ⟨3, "sha256:c", [], none⟩ ["sha256:c"] ["sha256:c"]
    ["sha256:p1", "sha256:p2"] 0 0
    (by decide) (by decide) (by decide) (by decide) (by decide) (by decide)
    (Or.inl rfl) (by decide) (by decide) (by decide) (by decide) (by decide)
    (by decide) (by decide) (by decide) (by decide) (by decide)
  exact ⟨h.1.1, h.2.1⟩

/-! ## Shape lemmas for the candidate set reducer -/

theorem nodup_dedup_aux : ∀ (xs acc : List String), acc.Nodup →
    (xs.foldl insertSet acc).Nodup
  | [], _, h => h
  | x :: t, acc, h => nodup_dedup_aux t (insertSet acc x) (nodup_insertSet x h)

theorem nodup_dedup (xs : List String) : (dedup xs).Nodup :=
  nodup_dedup_aux xs [] List.nodup_nil

theorem nodup_getDigests (pkgs : List PackageVersion) : (getDigests pkgs).Nodup :=
  nodup_dedup _

theorem foldl_erase_sublist :
    ∀ (rl l : List String), (rl.foldl (fun fs c => fs.erase c) l).Sublist l
  | [], _ => List.Sublist.refl _
  | c :: rt, l =>
    (foldl_erase_sublist rt (l.erase c)).trans (List.erase_sublist c l)

theorem trimStep_shape (st : St) (d : String) :
    trimStep st d = { st with filterSet := (trimStep st d).filterSet } ∧
    (trimStep st d).filterSet.Sublist st.filterSet := by
  unfold trimStep
  rcases hm : getManifestByDigest st.remote d with _ | m
  · simp only
    split
    · rcases hd : getTagDigest st.remote (referrerTagOf d) with _ | rd
      · exact ⟨rfl, List.Sublist.refl _⟩
      · rcases hmt : getManifestByTag st.remote (referrerTagOf d) with _ | m2
        · exact ⟨rfl, List.erase_sublist _ _⟩
        · cases m2 with
          | leaf ls => exact ⟨rfl, List.erase_sublist _ _⟩
          | index cs2 =>
            exact ⟨rfl, (foldl_erase_sublist cs2 _).trans (List.erase_sublist _ _)⟩
    · exact ⟨rfl, List.Sublist.refl _⟩
  · cases m with
    | leaf ls =>
      simp only
      split
      · rcases hd : getTagDigest st.remote (referrerTagOf d) with _ | rd
        · exact ⟨rfl, List.Sublist.refl _⟩
        · rcases hmt : getManifestByTag st.remote (referrerTagOf d) with _ | m2
          · exact ⟨rfl, List.erase_sublist _ _⟩
          · cases m2 with
            | leaf ls2 => exact ⟨rfl, List.erase_sublist _ _⟩
            | index cs2 =>
              exact ⟨rfl, (foldl_erase_sublist cs2 _).trans (List.erase_sublist _ _)⟩
      · exact ⟨rfl, List.Sublist.refl _⟩
    | index cs =>
      simp only
      split
      · rcases hd : getTagDigest st.remote (referrerTagOf d) with _ | rd
        · exact ⟨rfl, foldl_erase_sublist cs _⟩
        · rcases hmt : getManifestByTag st.remote (referrerTagOf d) with _ | m2
          · exact ⟨rfl, (List.erase_sublist _ _).trans (foldl_erase_sublist cs _)⟩
          · cases m2 with
            | leaf ls2 =>
              exact ⟨rfl, (List.erase_sublist _ _).trans (foldl_erase_sublist cs _)⟩
            | index cs2 =>
              exact ⟨rfl, ((foldl_erase_sublist cs2 _).trans
                (List.erase_sublist _ _)).trans (foldl_erase_sublist cs _)⟩
      · exact ⟨rfl, foldl_erase_sublist cs _⟩

theorem trimStep_shapeFE (s : St) (d : String) :
    trimStep s d = { s with filterSet := (trimStep s d).filterSet,
                            excludeTags := (trimStep s d).excludeTags } ∧
    (trimStep s d).filterSet.Sublist s.filterSet := by
  rcases trimStep_shape s d with ⟨h1, h2⟩
  refine ⟨?_, h2⟩
  conv_lhs => rw [h1]
  conv_rhs => rw [h1]

/-- A fold whose every step changes only the filter set and the excluded tag
list, shrinking the filter set, has the same overall shape. -/
theorem foldl_filterExclude_shape {α : Type} {f : St → α → St}
    (hstep : ∀ (s : St) (x : α),
      f s x = { s with filterSet := (f s x).filterSet,
                       excludeTags := (f s x).excludeTags } ∧
      (f s x).filterSet.Sublist s.filterSet) :
    ∀ (l : List α) (s : St),
      l.foldl f s = { s with filterSet := (l.foldl f s).filterSet,
                             excludeTags := (l.foldl f s).excludeTags } ∧
      (l.foldl f s).filterSet.Sublist s.filterSet
  | [], s => ⟨rfl, List.Sublist.refl _⟩
  | x :: t, s => by
    rcases hstep s x with ⟨h1, h2⟩
    rcases foldl_filterExclude_shape hstep t (f s x) with ⟨ih1, ih2⟩
    rw [List.foldl_cons]
    constructor
    · have hmid : ({ f s x with
          filterSet := (t.foldl f (f s x)).filterSet,
          excludeTags := (t.foldl f (f s x)).excludeTags } : St)
          = { s with filterSet := (t.foldl f (f s x)).filterSet,
                     excludeTags := (t.foldl f (f s x)).excludeTags } := by
        generalize (t.foldl f (f s x)).filterSet = A
        generalize (t.foldl f (f s x)).excludeTags = B
        rw [h1]
      exact ih1.trans hmid
    · exact ih2.trans h2

theorem excludeTrim_shape (env : Env) (st : St) :
    excludeTrim env st = { st with
      filterSet := (excludeTrim env st).filterSet,
      excludeTags := (excludeTrim env st).excludeTags } ∧
    (excludeTrim env st).filterSet.Sublist st.filterSet := by
  unfold excludeTrim
  rcases env.cfg.excludeTags with _ | pat
  · exact ⟨rfl, List.Sublist.refl _⟩
  · simp only
    refine foldl_filterExclude_shape ?_ st.tagsInUse _
    intro s tag
    cases hw : wcmatch pat tag with
    | false =>
      rw [if_neg Bool.false_ne_true]
      exact ⟨by trivial, List.Sublist.refl _⟩
    | true =>
      rw [if_pos rfl]
      rcases hd : getDigestByTag s.pkgs tag with _ | dg
      · simp only [hd]
        exact ⟨by trivial, List.Sublist.refl _⟩
      · simp only [hd]
        exact ⟨by trivial, List.erase_sublist _ _⟩

theorem ageTrim_shape (env : Env) (st : St) :
    ageTrim env st = { st with
      filterSet := (ageTrim env st).filterSet,
      excludeTags := (ageTrim env st).excludeTags } ∧
    (ageTrim env st).filterSet.Sublist st.filterSet := by
  unfold ageTrim
  rcases env.cfg.olderThan with _ | cutoff
  · exact ⟨rfl, List.Sublist.refl _⟩
  · simp only
    refine foldl_filterExclude_shape ?_ st.filterSet _
    intro s digest
    rcases hp : getPackageByDigest s.pkgs digest with _ | p
    · simp only [hp]
      exact ⟨by trivial, List.Sublist.refl _⟩
    · rcases hu : p.updated_at with _ | dt
      · simp only [hp, hu]
        exact ⟨by trivial, List.Sublist.refl _⟩
      · simp only [hp, hu]
        split
        · exact ⟨by trivial, List.erase_sublist _ _⟩
        · exact ⟨by trivial, List.Sublist.refl _⟩

theorem trimChildren_shape (st : St) :
    trimChildren st = { st with filterSet := (trimChildren st).filterSet,
                                excludeTags := (trimChildren st).excludeTags } ∧
    (trimChildren st).filterSet.Sublist st.filterSet :=
  foldl_filterExclude_shape trimStep_shapeFE (getDigests st.pkgs) st

/-- All fields a filter-and-exclude shaped operation leaves unchanged. -/
theorem shape_fields {X Y : St}
    (h : Y = { X with filterSet := Y.filterSet, excludeTags := Y.excludeTags }) :
    Y.remote = X.remote ∧ Y.pkgs = X.pkgs ∧ Y.deleteSet = X.deleteSet ∧
    Y.tagsInUse = X.tagsInUse ∧ Y.digestUsedBy = X.digestUsedBy ∧
    Y.deleted = X.deleted ∧ Y.deletions = X.deletions ∧
    Y.numberImagesDeleted = X.numberImagesDeleted ∧
    Y.numberMultiImagesDeleted = X.numberMultiImagesDeleted := by
  constructor; · rw [h]
  constructor; · rw [h]
  constructor; · rw [h]
  constructor; · rw [h]
  constructor; · rw [h]
  constructor; · rw [h]
  constructor; · rw [h]
  constructor; · rw [h]
  rw [h]

/-- The observable effect of `reload`: delete and deleted sets cleared, the
snapshot re-read from the remote, a duplicate-free filter set, and everything
else (remote store, deletion log, counters) untouched. -/
theorem reload_props (env : Env) (st : St) :
    (reload env st).deleteSet = [] ∧ (reload env st).deleted = [] ∧
    (reload env st).filterSet.Nodup ∧ (reload env st).remote = st.remote ∧
    (reload env st).pkgs = st.remote.packages ∧
    (reload env st).tagsInUse = getTags st.remote.packages ∧
    (reload env st).deletions = st.deletions ∧
    (reload env st).numberImagesDeleted = st.numberImagesDeleted ∧
    (reload env st).numberMultiImagesDeleted = st.numberMultiImagesDeleted := by
  have hreload : reload env st = ageTrim env (excludeTrim env (trimChildren
      (loadDigestUsedByMap
        { st with deleteSet := [], deleted := [],
                  pkgs := st.remote.packages,
                  filterSet := getDigests st.remote.packages,
                  tagsInUse := getTags st.remote.packages }))) := rfl
  set Y1 := loadDigestUsedByMap
    { st with deleteSet := [], deleted := [],
              pkgs := st.remote.packages,
              filterSet := getDigests st.remote.packages,
              tagsInUse := getTags st.remote.packages } with hY1
  have hY1fields : Y1.deleteSet = [] ∧ Y1.deleted = [] ∧
      Y1.filterSet = getDigests st.remote.packages ∧ Y1.remote = st.remote ∧
      Y1.pkgs = st.remote.packages ∧ Y1.tagsInUse = getTags st.remote.packages ∧
      Y1.deletions = st.deletions ∧
      Y1.numberImagesDeleted = st.numberImagesDeleted ∧
      Y1.numberMultiImagesDeleted = st.numberMultiImagesDeleted :=
    ⟨rfl, rfl, rfl, rfl, rfl, rfl, rfl, rfl, rfl⟩
  rcases trimChildren_shape Y1 with ⟨h2, h2s⟩
  rcases shape_fields h2 with ⟨f2r, f2p, f2ds, f2t, f2du, f2del, f2dl, f2n1, f2n2⟩
  rcases excludeTrim_shape env (trimChildren Y1) with ⟨h3, h3s⟩
  rcases shape_fields h3 with ⟨f3r, f3p, f3ds, f3t, f3du, f3del, f3dl, f3n1, f3n2⟩
  rcases ageTrim_shape env (excludeTrim env (trimChildren Y1)) with ⟨h4, h4s⟩
  rcases shape_fields h4 with ⟨f4r, f4p, f4ds, f4t, f4du, f4del, f4dl, f4n1, f4n2⟩
  rw [hreload]
  refine ⟨?_, ?_, ?_, ?_, ?_, ?_, ?_, ?_, ?_⟩
  · rw [f4ds, f3ds, f2ds]; exact hY1fields.1
  · rw [f4del, f3del, f2del]; exact hY1fields.2.1
  · refine List.Nodup.sublist (h4s.trans (h3s.trans h2s)) ?_
    rw [hY1fields.2.2.1]
    exact nodup_getDigests _
  · rw [f4r, f3r, f2r]; exact hY1fields.2.2.2.1
  · rw [f4p, f3p, f2p]; exact hY1fields.2.2.2.2.1
  · rw [f4t, f3t, f2t]; exact hY1fields.2.2.2.2.2.1
  · rw [f4dl, f3dl, f2dl]; exact hY1fields.2.2.2.2.2.2.1
  · rw [f4n1, f3n1, f2n1]; exact hY1fields.2.2.2.2.2.2.2.1
  · rw [f4n2, f3n2, f2n2]; exact hY1fields.2.2.2.2.2.2.2.2

theorem processUntag_sets (env : Env) (acc : St × List String) (tag : String) :
    (processUntag env acc tag).fst.filterSet = acc.fst.filterSet ∧
    (processUntag env acc tag).fst.deleteSet = acc.fst.deleteSet := by
  simp only [processUntag]
  repeat' split
  all_goals exact ⟨rfl, rfl⟩

theorem processUntagFold_sets (env : Env) :
    ∀ (l : List String) (acc : St × List String),
      (l.foldl (processUntag env) acc).fst.filterSet = acc.fst.filterSet ∧
      (l.foldl (processUntag env) acc).fst.deleteSet = acc.fst.deleteSet
  | [], _ => ⟨rfl, rfl⟩
  | x :: t, acc => by
    rw [List.foldl_cons]
    rcases processUntagFold_sets env t (processUntag env acc x) with ⟨h1, h2⟩
    rcases processUntag_sets env acc x with ⟨g1, g2⟩
    exact ⟨h1.trans g1, h2.trans g2⟩

theorem stdTagFold_preserves :
    ∀ (l : List String) (s : St), s.filterSet.Nodup →
      (∀ x ∈ s.deleteSet, x ∉ s.filterSet) →
      ((l.foldl (fun s tag =>
          match getTagDigest s.remote tag with
          | none => s
          | some manifestDigest =>
            { s with deleteSet := insertSet s.deleteSet manifestDigest,
                     filterSet := s.filterSet.erase manifestDigest }) s).filterSet.Nodup ∧
       (∀ x ∈ (l.foldl (fun s tag =>
          match getTagDigest s.remote tag with
          | none => s
          | some manifestDigest =>
            { s with deleteSet := insertSet s.deleteSet manifestDigest,
                     filterSet := s.filterSet.erase manifestDigest }) s).deleteSet,
          x ∉ (l.foldl (fun s tag =>
          match getTagDigest s.remote tag with
          | none => s
          | some manifestDigest =>
            { s with deleteSet := insertSet s.deleteSet manifestDigest,
                     filterSet := s.filterSet.erase manifestDigest }) s).filterSet))
  | [], s, hnd, hdisj => ⟨hnd, hdisj⟩
  | tag :: t, s, hnd, hdisj => by
    rw [List.foldl_cons]
    rcases hd : getTagDigest s.remote tag with _ | md
    · simp only [hd]
      exact stdTagFold_preserves t s hnd hdisj
    · simp only [hd]
      refine stdTagFold_preserves t _ (List.Nodup.erase md hnd) ?_
      intro x hx
      rcases mem_insertSet.mp hx with hx | rfl
      · intro hmem
        exact hdisj x hx (List.mem_of_mem_erase hmem)
      · intro hmem
        exact ((hnd.mem_erase_iff).mp hmem).1 rfl

theorem keepMoveFold_preserves :
    ∀ (L : List PackageVersion) (s : St), s.filterSet.Nodup →
      (∀ x ∈ s.deleteSet, x ∉ s.filterSet) →
      ((L.foldl (fun s p =>
          { s with deleteSet := insertSet s.deleteSet p.name,
                   filterSet := s.filterSet.erase p.name }) s).filterSet.Nodup ∧
       (∀ x ∈ (L.foldl (fun s p =>
          { s with deleteSet := insertSet s.deleteSet p.name,
                   filterSet := s.filterSet.erase p.name }) s).deleteSet,
          x ∉ (L.foldl (fun s p =>
          { s with deleteSet := insertSet s.deleteSet p.name,
                   filterSet := s.filterSet.erase p.name }) s).filterSet))
  | [], _, hnd, hdisj => ⟨hnd, hdisj⟩
  | p :: t, s, hnd, hdisj => by
    rw [List.foldl_cons]
    refine keepMoveFold_preserves t _ (List.Nodup.erase p.name hnd) ?_
    intro x hx
    rcases mem_insertSet.mp hx with hx | rfl
    · intro hmem
      exact hdisj x hx (List.mem_of_mem_erase hmem)
    · intro hmem
      exact ((hnd.mem_erase_iff).mp hmem).1 rfl

theorem moveLoop_preserves (p : Remote → List PackageVersion → String → Bool)
    (st : St) (hnd : st.filterSet.Nodup)
    (hdisj : ∀ x ∈ st.deleteSet, x ∉ st.filterSet) :
    (st.filterSet.foldl (moveStep p) st).filterSet.Nodup ∧
    (∀ x ∈ (st.filterSet.foldl (moveStep p) st).deleteSet,
      x ∉ (st.filterSet.foldl (moveStep p) st).filterSet) := by
  constructor
  · rw [moveLoop_eq p st hnd]
    exact List.Nodup.filter _ hnd
  · intro x hx hmem
    rcases (mem_moveLoop_deleteSet p st hnd x).mp hx with hx | ⟨-, hx⟩
    · exact hdisj x hx ((mem_moveLoop_filterSet p st hnd x).mp hmem).1
    · exact ((mem_moveLoop_filterSet p st hnd x).mp hmem).2 hx

theorem deleteByTag_preserves (env : Env) (st : St) (hnd : st.filterSet.Nodup)
    (hdisj : ∀ x ∈ st.deleteSet, x ∉ st.filterSet) :
    (deleteByTag env st).filterSet.Nodup ∧
    (∀ x ∈ (deleteByTag env st).deleteSet, x ∉ (deleteByTag env st).filterSet) := by
  rcases hdt : env.cfg.deleteTags with _ | pat
  · simp only [deleteByTag, hdt]
    exact ⟨hnd, hdisj⟩
  · simp only [deleteByTag, hdt]
    split
    · by_cases hu : (prescanTags st (matchTagsOf pat st)).1.length > 0
      · rw [if_pos hu]
        rcases reload_props env
          ((prescanTags st (matchTagsOf pat st)).1.foldl (processUntag env)
            (st, (prescanTags st (matchTagsOf pat st)).2)).fst
          with ⟨hds, -, hnodup, -⟩
        refine stdTagFold_preserves _ _ hnodup ?_
        intro x hx
        rw [hds] at hx
        cases hx
      · rw [if_neg hu]
        rcases processUntagFold_sets env (prescanTags st (matchTagsOf pat st)).1
          (st, (prescanTags st (matchTagsOf pat st)).2) with ⟨hfs, hds⟩
        refine stdTagFold_preserves _ _ ?_ ?_
        · rw [hfs]; exact hnd
        · intro x hx
          rw [hfs]
          rw [hds] at hx
          exact hdisj x hx
    · exact ⟨hnd, hdisj⟩

/-! ## Claim theorem: the filter and delete sets stay disjoint -/

/-- Claim C8: every classifier that commits a digest for deletion moves it
atomically — after `deleteByTag`, `deleteGhostImages`, `deletePartialImages`,
`keepNtagged`, `keepNuntagged` and `deleteUntagged` the delete set and the
filter set are still disjoint (given they were disjoint before, with a
duplicate-free filter set); `doDelete` touches neither set; and `reload`
re-establishes disjointness unconditionally by clearing the delete set. -/
theorem claim_C8 (env : Env) (st : St)
    (hnd : st.filterSet.Nodup)
    (hdisj : ∀ x ∈ st.deleteSet, x ∉ st.filterSet) :
    (∀ x ∈ (deleteGhostImages st).deleteSet, x ∉ (deleteGhostImages st).filterSet) ∧
    (∀ x ∈ (deletePartialImages st).deleteSet, x ∉ (deletePartialImages st).filterSet) ∧
    (∀ x ∈ (deleteUntagged st).deleteSet, x ∉ (deleteUntagged st).filterSet) ∧
    (∀ x ∈ (keepNtagged env st).deleteSet, x ∉ (keepNtagged env st).filterSet) ∧
    (∀ x ∈ (keepNuntagged env st).deleteSet, x ∉ (keepNuntagged env st).filterSet) ∧
    (∀ x ∈ (deleteByTag env st).deleteSet, x ∉ (deleteByTag env st).filterSet) ∧
    (∀ fuel, ∀ x ∈ (doDelete fuel st).deleteSet, x ∉ (doDelete fuel st).filterSet) ∧
    (∀ st' : St, ∀ x ∈ (reload env st').deleteSet, x ∉ (reload env st').filterSet) := by
  refine ⟨(moveLoop_preserves ghostPred st hnd hdisj).2,
          (moveLoop_preserves partialPred st hnd hdisj).2,
          (moveLoop_preserves untaggedPred st hnd hdisj).2, ?_, ?_,
          (deleteByTag_preserves env st hnd hdisj).2, ?_, ?_⟩
  · rcases hk : env.cfg.keepNtagged with _ | n
    · simp only [keepNtagged, hk]
      exact hdisj
    · simp only [keepNtagged, hk]
      split
      · exact (keepMoveFold_preserves _ st hnd hdisj).2
      · exact hdisj
  · rcases hk : env.cfg.keepNuntagged with _ | n
    · simp only [keepNuntagged, hk]
      exact hdisj
    · simp only [keepNuntagged, hk]
      split
      · split
        · exact (keepMoveFold_preserves _ st hnd hdisj).2
        · exact hdisj
      · exact hdisj
  · intro fuel x hx
    have hframe : DeleteFrame st (doDelete fuel st) :=
      foldl_deleteFrame (doDeleteStep_frame fuel) st.deleteSet st
    rw [hframe.filterSet_eq]
    rw [hframe.deleteSet_eq] at hx
    exact hdisj x hx
  · intro st' x hx
    rw [(reload_props env st').1] at hx
    cases hx

/-- Witness for claim C8 at a concrete one-ghost state. -/
theorem claim_C8_witness :
    (["sha256:x"] : List String).Nodup ∧
    "sha256:x" ∉ (deleteGhostImages
      { remote := { packages := [⟨1, "sha256:x", [], none⟩],
                    manifests := [("sha256:x", Manifest.index ["sha256:m"])] },
        pkgs := [⟨1, "sha256:x", [], none⟩],
        filterSet := ["sha256:x"], deleteSet := [], tagsInUse := [],
        digestUsedBy := [], deleted := [], excludeTags := [],
        numberImagesDeleted := 0, numberMultiImagesDeleted := 0,
        deletions := [] }).filterSet :=
  ⟨by decide,
   (claim_C8
      ⟨⟨none, none, none, 0, true, true, false, none, none⟩,
       fun _ => "sha256:h", fun _ => 0⟩
      { remote := { packages := [⟨1, "sha256:x", [], none⟩],
                    manifests := [("sha256:x", Manifest.index ["sha256:m"])] },
        pkgs := [⟨1, "sha256:x", [], none⟩],
        filterSet := ["sha256:x"], deleteSet := [], tagsInUse := [],
        digestUsedBy := [], deleted := [], excludeTags := [],
        numberImagesDeleted := 0, numberMultiImagesDeleted := 0,
        deletions := [] }
      (by decide) (by decide)).1 "sha256:x" (by decide)⟩

/-! ## Validator lemmas -/

theorem mem_foldl_insertSet :
    ∀ (cs pr : List String) (x : String),
      x ∈ cs.foldl insertSet pr ↔ x ∈ pr ∨ x ∈ cs
  | [], pr, x => by simp
  | c :: t, pr, x => by
    rw [List.foldl_cons, mem_foldl_insertSet t]
    rw [mem_insertSet, List.mem_cons]
    constructor
    · rintro ((h | rfl) | h)
      · exact Or.inl h
      · exact Or.inr (Or.inl rfl)
      · exact Or.inr (Or.inr h)
    · rintro (h | (rfl | h))
      · exact Or.inl (Or.inl h)
      · exact Or.inl (Or.inr rfl)
      · exact Or.inr h

theorem validateChildrenFold (pkgs : List PackageVersion) :
    ∀ (cs : List String) (ws pr : List String),
      ((cs.foldl (validateChildStep pkgs) (ws, pr)).fst
        = ws ++ cs.filter (fun c => (getIdByDigest pkgs c).isNone)) ∧
      (∀ x, x ∈ (cs.foldl (validateChildStep pkgs) (ws, pr)).snd ↔
        x ∈ pr ∨ x ∈ cs)
  | [], ws, pr => by simp
  | c :: t, ws, pr => by
    rw [List.foldl_cons]
    cases hmiss : (getIdByDigest pkgs c).isNone with
    | true =>
      have hstep : validateChildStep pkgs (ws, pr) c = (ws ++ [c], insertSet pr c) := by
        unfold validateChildStep
        rw [if_pos hmiss]
      rw [hstep]
      rcases validateChildrenFold pkgs t (ws ++ [c]) (insertSet pr c) with ⟨h1, h2⟩
      constructor
      · rw [h1, List.filter_cons_of_pos (by exact hmiss), List.append_assoc,
          List.singleton_append]
      · intro x
        rw [h2 x, mem_insertSet, List.mem_cons]
        constructor
        · rintro ((h | rfl) | h)
          · exact Or.inl h
          · exact Or.inr (Or.inl rfl)
          · exact Or.inr (Or.inr h)
        · rintro (h | (rfl | h))
          · exact Or.inl (Or.inl h)
          · exact Or.inl (Or.inr rfl)
          · exact Or.inr h
    | false =>
      have hstep : validateChildStep pkgs (ws, pr) c = (ws, insertSet pr c) := by
        unfold validateChildStep
        rw [if_neg (by rw [hmiss]; exact Bool.false_ne_true)]
      rw [hstep]
      rcases validateChildrenFold pkgs t ws (insertSet pr c) with ⟨h1, h2⟩
      constructor
      · rw [h1, List.filter_cons_of_neg (by rw [hmiss]; exact Bool.false_ne_true)]
      · intro x
        rw [h2 x, mem_insertSet, List.mem_cons]
        constructor
        · rintro ((h | rfl) | h)
          · exact Or.inl h
          · exact Or.inr (Or.inl rfl)
          · exact Or.inr (Or.inr h)
        · rintro (h | (rfl | h))
          · exact Or.inl (Or.inl h)
          · exact Or.inl (Or.inr rfl)
          · exact Or.inr h

theorem validateOuterFold (st : St) :
    ∀ (l : List String) (ws pr : List String),
      (∀ x ∈ l, x ∉ pr) →
      (∀ x ∈ l, ∀ d ∈ l, ∀ cs,
        getManifestByDigest st.remote d = some (Manifest.index cs) → x ∉ cs) →
      (l.foldl (validateStep st) (ws, pr)).fst
        = ws ++ l.flatMap (fun d =>
            match getManifestByDigest st.remote d with
            | some (Manifest.index cs) =>
                cs.filter (fun c => (getIdByDigest st.pkgs c).isNone)
            | _ => [])
  | [], ws, pr, _, _ => by simp
  | d :: t, ws, pr, h1, h2 => by
    rw [List.foldl_cons, List.flatMap_cons]
    rcases hm : getManifestByDigest st.remote d with _ | m
    · have hstep : validateStep st (ws, pr) d = (ws, pr) := by
        unfold validateStep
        rw [if_neg (h1 d (List.mem_cons_self d t)), hm]
      rw [hstep, validateOuterFold st t ws pr
        (fun x hx => h1 x (List.mem_cons_of_mem d hx))
        (fun x hx d' hd' cs hcs =>
          h2 x (List.mem_cons_of_mem d hx) d' (List.mem_cons_of_mem d hd') cs hcs)]
      simp
    · cases m with
      | leaf ls =>
        have hstep : validateStep st (ws, pr) d = (ws, pr) := by
          unfold validateStep
          rw [if_neg (h1 d (List.mem_cons_self d t)), hm]
        rw [hstep, validateOuterFold st t ws pr
          (fun x hx => h1 x (List.mem_cons_of_mem d hx))
          (fun x hx d' hd' cs hcs =>
            h2 x (List.mem_cons_of_mem d hx) d' (List.mem_cons_of_mem d hd') cs hcs)]
        simp
      | index cs =>
        have hstep : validateStep st (ws, pr) d
            = cs.foldl (validateChildStep st.pkgs) (ws, pr) := by
          unfold validateStep
          rw [if_neg (h1 d (List.mem_cons_self d t)), hm]
        rcases validateChildrenFold st.pkgs cs ws pr with ⟨hc1, hc2⟩
        have hpair : cs.foldl (validateChildStep st.pkgs) (ws, pr)
            = (ws ++ cs.filter (fun c => (getIdByDigest st.pkgs c).isNone),
               (cs.foldl (validateChildStep st.pkgs) (ws, pr)).snd) := by
          rw [Prod.ext_iff]
          exact ⟨hc1, rfl⟩
        have hend := validateOuterFold st t
          (ws ++ cs.filter (fun c => (getIdByDigest st.pkgs c).isNone))
          ((cs.foldl (validateChildStep st.pkgs) (ws, pr)).snd)
          (fun x hx hmem => by
            rcases (hc2 x).mp hmem with h | h
            · exact h1 x (List.mem_cons_of_mem d hx) h
            · exact h2 x (List.mem_cons_of_mem d hx) d (List.mem_cons_self d t)
                cs hm h)
          (fun x hx d' hd' cs' hcs' =>
            h2 x (List.mem_cons_of_mem d hx) d' (List.mem_cons_of_mem d hd')
              cs' hcs')
        rw [hstep, hpair, hend]
        simp [List.append_assoc]

theorem validateReferrerFold (pkgs : List PackageVersion) :
    ∀ (ts ws : List String),
      ts.foldl (validateReferrerStep pkgs) ws
        = ws ++ ts.filter (fun tag => jsStartsWith tag "sha256-" &&
            (getIdByDigest pkgs (jsReplace tag "sha256-" "sha256:")).isNone)
  | [], ws => by simp
  | tag :: t, ws => by
    rw [List.foldl_cons]
    cases hs : jsStartsWith tag "sha256-" with
    | false =>
      have hstep : validateReferrerStep pkgs ws tag = ws := by
        unfold validateReferrerStep
        rw [if_neg (by rw [hs]; exact Bool.false_ne_true)]
      rw [hstep, validateReferrerFold pkgs t ws,
        List.filter_cons_of_neg (by simp [hs])]
    | true =>
      cases hmiss : (getIdByDigest pkgs (jsReplace tag "sha256-" "sha256:")).isNone with
      | true =>
        have hstep : validateReferrerStep pkgs ws tag = ws ++ [tag] := by
          unfold validateReferrerStep
          rw [if_pos hs, if_pos hmiss]
        rw [hstep, validateReferrerFold pkgs t (ws ++ [tag]),
          List.filter_cons_of_pos (by simp [hs, hmiss]), List.append_assoc,
          List.singleton_append]
      | false =>
        have hstep : validateReferrerStep pkgs ws tag = ws := by
          unfold validateReferrerStep
          rw [if_pos hs, if_neg (by rw [hmiss]; exact Bool.false_ne_true)]
        rw [hstep, validateReferrerFold pkgs t ws,
          List.filter_cons_of_neg (by simp [hs, hmiss])]

/-! ## Claim theorems: the validator -/

/-- Claim C9 counterexample: a child digest missing from the known package
set and referenced by two different surviving index manifests is warned once
per referencing index — the warning list contains it twice, not at most
once. -/
theorem claim_C9_counterexample :
    getIdByDigest
      [⟨1, "sha256:p1", [], none⟩, ⟨2, "sha256:p2", [], none⟩] "sha256:c" = none ∧
    getManifestByDigest
      { packages := [⟨1, "sha256:p1", [], none⟩, ⟨2, "sha256:p2", [], none⟩],
        manifests := [("sha256:p1", Manifest.index ["sha256:c"]),
                      ("sha256:p2", Manifest.index ["sha256:c"])] }
      "sha256:p1" = some (Manifest.index ["sha256:c"]) ∧
    getManifestByDigest
      { packages := [⟨1, "sha256:p1", [], none⟩, ⟨2, "sha256:p2", [], none⟩],
        manifests := [("sha256:p1", Manifest.index ["sha256:c"]),
                      ("sha256:p2", Manifest.index ["sha256:c"])] }
      "sha256:p2" = some (Manifest.index ["sha256:c"]) ∧
    (validate
      { remote := { packages := [⟨1, "sha256:p1", [], none⟩,
                                 ⟨2, "sha256:p2", [], none⟩],
                    manifests := [("sha256:p1", Manifest.index ["sha256:c"]),
                                  ("sha256:p2", Manifest.index ["sha256:c"])] },
        pkgs := [⟨1, "sha256:p1", [], none⟩, ⟨2, "sha256:p2", [], none⟩],
        filterSet := [], deleteSet := [], tagsInUse := [],
        digestUsedBy := [], deleted := [], excludeTags := [],
        numberImagesDeleted := 0, numberMultiImagesDeleted := 0,
        deletions := [] }).count "sha256:c" = 2 := by
  refine ⟨by decide, by decide, by decide, by decide⟩

/-- Claim C9 (amended): the validator only reads the state and returns
warning entries, and it warns once per referencing index occurrence, not once
per run: when no known digest is itself a child of a known index manifest
(the processed marking then never suppresses an outer digest), the warning
list is exactly the missing index children of every known digest in order,
followed by the orphaned referrer tags — a missing child shared by several
surviving indexes appears once per referencing index. -/
theorem claim_C9_amended (st : St)
    (hsep : ∀ x ∈ getDigests st.pkgs, ∀ d ∈ getDigests st.pkgs, ∀ cs,
      getManifestByDigest st.remote d = some (Manifest.index cs) → x ∉ cs) :
    validate st
      = (getDigests st.pkgs).flatMap (fun d =>
          match getManifestByDigest st.remote d with
          | some (Manifest.index cs) =>
              cs.filter (fun c => (getIdByDigest st.pkgs c).isNone)
          | _ => []) ++
        st.tagsInUse.filter (fun tag => jsStartsWith tag "sha256-" &&
          (getIdByDigest st.pkgs (jsReplace tag "sha256-" "sha256:")).isNone) := by
  show ((getDigests st.pkgs).foldl (validateStep st) ([], [])).fst ++
    st.tagsInUse.foldl (validateReferrerStep st.pkgs) [] = _
  rw [validateOuterFold st (getDigests st.pkgs) [] []
      (fun x _ h => (List.not_mem_nil x) h) hsep,
    validateReferrerFold st.pkgs st.tagsInUse [],
    List.nil_append, List.nil_append]

/-- Witness for the amended claim C9: at the concrete shared-missing-child
state the warning list is the child once per referencing index. -/
theorem claim_C9_amended_witness :
    validate stC9W = ["sha256:d", "sha256:d"] := by
  refine (claim_C9_amended stC9W ?_).trans (by decide)
  intro x hx d hd cs hcs
  have hdig : getDigests stC9W.pkgs = ["sha256:q1", "sha256:q2"] := by decide
  rw [hdig] at hx hd
  have hxs : x = "sha256:q1" ∨ x = "sha256:q2" := by simpa using hx
  have hds : d = "sha256:q1" ∨ d = "sha256:q2" := by simpa using hd
  have hcs' : cs = ["sha256:d"] := by
    rcases hds with h | h <;> subst h
    · have he : getManifestByDigest stC9W.remote "sha256:q1"
          = some (Manifest.index ["sha256:d"]) := by decide
      have := he.symm.trans hcs
      simpa using this.symm
    · have he : getManifestByDigest stC9W.remote "sha256:q2"
          = some (Manifest.index ["sha256:d"]) := by decide
      have := he.symm.trans hcs
      simpa using this.symm
  subst hcs'
  rcases hxs with h | h <;> subst h <;> decide

theorem matchTagsOf_eq (pat : String) (st : St) :
    matchTagsOf pat st = st.filterSet.foldl (matchStep st.pkgs pat) [] := rfl

theorem prescanTags_eq (st : St) (l : List String) :
    prescanTags st l = l.foldl (prescanStep st) ([], []) := rfl

theorem matchFold_mem (pkgs : List PackageVersion) (pat : String) :
    ∀ (l acc : List String) (tag : String),
      tag ∈ l.foldl (matchStep pkgs pat) acc ↔
        tag ∈ acc ∨ ∃ digest, digest ∈ l ∧ ∃ p,
          getPackageByDigest pkgs digest = some p ∧
          tag ∈ p.tags ∧ wcmatch pat tag = true
  | [], acc, tag => by simp
  | d :: t, acc, tag => by
    rw [List.foldl_cons, matchFold_mem pkgs pat t (matchStep pkgs pat acc d) tag]
    cases hp : getPackageByDigest pkgs d with
    | none =>
      have hstep : matchStep pkgs pat acc d = acc := by
        unfold matchStep
        rw [hp]
      rw [hstep]
      constructor
      · rintro (h | ⟨dg, hdg, hP⟩)
        · exact Or.inl h
        · exact Or.inr ⟨dg, List.mem_cons_of_mem _ hdg, hP⟩
      · rintro (h | ⟨dg, hdg, p, hpe, hrest⟩)
        · exact Or.inl h
        · rcases List.mem_cons.mp hdg with rfl | hdg'
          · rw [hp] at hpe
            cases hpe
          · exact Or.inr ⟨dg, hdg', p, hpe, hrest⟩
    | some p =>
      have hstep : matchStep pkgs pat acc d
          = acc ++ p.tags.filter (fun tg => wcmatch pat tg) := by
        unfold matchStep
        rw [hp]
      rw [hstep]
      constructor
      · rintro (h | ⟨dg, hdg, q, hqe, ht, hw⟩)
        · rcases List.mem_append.mp h with h' | h'
          · exact Or.inl h'
          · have hm := List.mem_filter.mp h'
            exact Or.inr ⟨d, List.mem_cons_self d t, p, hp, hm.1, hm.2⟩
        · exact Or.inr ⟨dg, List.mem_cons_of_mem _ hdg, q, hqe, ht, hw⟩
      · rintro (h | ⟨dg, hdg, q, hqe, ht, hw⟩)
        · exact Or.inl (List.mem_append_left _ h)
        · rcases List.mem_cons.mp hdg with rfl | hdg'
          · rw [hp] at hqe
            obtain rfl : q = p := (Option.some.inj hqe).symm
            exact Or.inl
              (List.mem_append_right _ (List.mem_filter.mpr ⟨ht, hw⟩))
          · exact Or.inr ⟨dg, hdg', q, hqe, ht, hw⟩

theorem prescanStep_cases (st : St) (acc : List String × List String)
    (x : String) :
    prescanStep st acc x = acc ∨
    (x ∉ st.excludeTags ∧
      (prescanStep st acc x = (insertSet acc.fst x, acc.snd) ∨
       prescanStep st acc x = (acc.fst, insertSet acc.snd x))) := by
  unfold prescanStep
  split
  · exact Or.inl rfl
  · rename_i hex
    split
    · exact Or.inl rfl
    · split
      · exact Or.inl rfl
      · split
        · exact Or.inr ⟨hex, Or.inl rfl⟩
        · split
          · exact Or.inr ⟨hex, Or.inr rfl⟩
          · exact Or.inl rfl

theorem prescanFold_mem (st : St) :
    ∀ (l : List String) (acc : List String × List String) (tag : String),
      (tag ∈ (l.foldl (prescanStep st) acc).fst →
        tag ∈ acc.fst ∨ (tag ∈ l ∧ tag ∉ st.excludeTags)) ∧
      (tag ∈ (l.foldl (prescanStep st) acc).snd →
        tag ∈ acc.snd ∨ (tag ∈ l ∧ tag ∉ st.excludeTags))
  | [], acc, tag => by simp
  | x :: t, acc, tag => by
    rw [List.foldl_cons]
    have ih := prescanFold_mem st t (prescanStep st acc x) tag
    have hfst : ∀ y, y ∈ (prescanStep st acc x).fst →
        y ∈ acc.fst ∨ (y = x ∧ x ∉ st.excludeTags) := by
      intro y hy
      rcases prescanStep_cases st acc x with heq | ⟨hex, heq | heq⟩
      · rw [heq] at hy
        exact Or.inl hy
      · rw [heq] at hy
        rcases mem_insertSet.mp hy with h | rfl
        · exact Or.inl h
        · exact Or.inr ⟨rfl, hex⟩
      · rw [heq] at hy
        exact Or.inl hy
    have hsnd : ∀ y, y ∈ (prescanStep st acc x).snd →
        y ∈ acc.snd ∨ (y = x ∧ x ∉ st.excludeTags) := by
      intro y hy
      rcases prescanStep_cases st acc x with heq | ⟨hex, heq | heq⟩
      · rw [heq] at hy
        exact Or.inl hy
      · rw [heq] at hy
        exact Or.inl hy
      · rw [heq] at hy
        rcases mem_insertSet.mp hy with h | rfl
        · exact Or.inl h
        · exact Or.inr ⟨rfl, hex⟩
    constructor
    · intro h
      rcases ih.1 h with h' | ⟨ht, hexm⟩
      · rcases hfst tag h' with h'' | ⟨rfl, hexm⟩
        · exact Or.inl h''
        · exact Or.inr ⟨List.mem_cons_self _ _, hexm⟩
      · exact Or.inr ⟨List.mem_cons_of_mem _ ht, hexm⟩
    · intro h
      rcases ih.2 h with h' | ⟨ht, hexm⟩
      · rcases hsnd tag h' with h'' | ⟨rfl, hexm⟩
        · exact Or.inl h''
        · exact Or.inr ⟨List.mem_cons_self _ _, hexm⟩
      · exact Or.inr ⟨List.mem_cons_of_mem _ ht, hexm⟩

/-! ## Claim theorems: the explicit tag matcher -/

/-- Claim C7 counterexample: the tag v1 is in use, matches the delete-tags
pattern, is not excluded, and resolves to a live digest — yet because that
digest is no longer in the filter set, deleteByTag processes nothing and
leaves the state unchanged with an empty delete set. -/
theorem claim_C7_counterexample :
    "v1" ∈ stC7.tagsInUse ∧ wcmatch "v1" "v1" = true ∧
    "v1" ∉ stC7.excludeTags ∧ envC7.cfg.deleteTags = some "v1" ∧
    getTagDigest stC7.remote "v1" = some "sha256:a" ∧
    deleteByTag envC7 stC7 = stC7 ∧
    (deleteByTag envC7 stC7).deleteSet = [] :=
  ⟨by decide, by decide, by decide, rfl, by decide, rfl, rfl⟩

/-- Claim C7 (amended): explicit tag deletion resolves the delete-tags
patterns against the tags of filter set packages only, not against all
in-use tags: a tag enters the match list exactly when some filter set digest
resolves to a package record carrying it and it matches the patterns, and
every tag the pre-scan classifies for processing (untagging or standard) is
a match-list tag outside the exclude list — so an in-use matching tag whose
digest has left the filter set is never processed. -/
theorem claim_C7_amended (st : St) (pat : String) :
    (∀ tag, tag ∈ matchTagsOf pat st ↔
      ∃ digest, digest ∈ st.filterSet ∧ ∃ p,
        getPackageByDigest st.pkgs digest = some p ∧
        tag ∈ p.tags ∧ wcmatch pat tag = true) ∧
    (∀ tag,
      tag ∈ (prescanTags st (matchTagsOf pat st)).fst ∨
      tag ∈ (prescanTags st (matchTagsOf pat st)).snd →
      tag ∈ matchTagsOf pat st ∧ tag ∉ st.excludeTags) := by
  constructor
  · intro tag
    rw [matchTagsOf_eq, matchFold_mem st.pkgs pat st.filterSet [] tag]
    simp
  · intro tag h
    rcases h with h | h
    · rw [prescanTags_eq] at h
      rcases (prescanFold_mem st (matchTagsOf pat st) ([], []) tag).1 h with
        h' | h'
      · cases h'
      · exact h'
    · rw [prescanTags_eq] at h
      rcases (prescanFold_mem st (matchTagsOf pat st) ([], []) tag).2 h with
        h' | h'
      · cases h'
      · exact h'

/-- Witness for the amended claim C7: at the concrete state, no filter set
digest carries the tag v1, so v1 is not in the match list. -/
theorem claim_C7_amended_witness :
    ¬ ∃ digest, digest ∈ stC7.filterSet ∧ ∃ p,
      getPackageByDigest stC7.pkgs digest = some p ∧
      "v1" ∈ p.tags ∧ wcmatch "v1" "v1" = true := fun h => by
  have hm := ((claim_C7_amended stC7 "v1").1 "v1").mpr h
  revert hm
  decide

/-! ## Claim theorems: the untagging workaround -/

/-- Claim C4: deleting the tag v1 through the untagging path of
`deleteByTag`, when its resolved digest sha256:d also carries the tag v2,
leaves sha256:d in the remote listing (still reachable via v2) and deletes
exactly one digest: the clone sha256:n of the stored manifest with its child
or layer list emptied, pushed under the tag v1 and then deleted through the
package collaborator. The full reload runs before the standard deletion of
w1 is processed: the leftover delete set entry is gone, the final delete set
holds exactly the standard tag's digest sha256:s, and the in-use tag set has
been rebuilt without v1. -/
theorem claim_C4 (m mS : Manifest) :
    (deleteByTag envC4 (stC4 m mS)).remote.packages
      = [⟨1, "sha256:d", ["v2"], none⟩, ⟨2, "sha256:s", ["w1"], none⟩] ∧
    (deleteByTag envC4 (stC4 m mS)).remote.manifests
      = [("sha256:d", m), ("sha256:s", mS), ("sha256:n", emptiedManifest m)] ∧
    (deleteByTag envC4 (stC4 m mS)).deletions = ["sha256:n"] ∧
    (deleteByTag envC4 (stC4 m mS)).deleteSet = ["sha256:s"] ∧
    (deleteByTag envC4 (stC4 m mS)).tagsInUse = ["v2", "w1"] ∧
    (deleteByTag envC4 (stC4 m mS)).numberImagesDeleted = 1 := by
  have h0 : deleteByTag envC4 (stC4 m mS)
      = (fun s : St =>
          match getTagDigest s.remote "w1" with
          | none => s
          | some md => { s with deleteSet := insertSet s.deleteSet md,
                                filterSet := s.filterSet.erase md })
        (reload envC4 (stMidC4 m mS)) := rfl
  rcases reload_props envC4 (stMidC4 m mS) with
    ⟨hds, hdel, hnd, hrem, hpkgs, htag, hdl, hn1, hn2⟩
  have hw : getTagDigest (reload envC4 (stMidC4 m mS)).remote "w1"
      = some "sha256:s" := by
    rw [hrem]
    rfl
  rw [h0]
  simp only [hw]
  refine ⟨?_, ?_, ?_, ?_, ?_, ?_⟩
  · exact (congrArg Remote.packages hrem).trans rfl
  · exact (congrArg Remote.manifests hrem).trans rfl
  · exact hdl.trans rfl
  · show insertSet (reload envC4 (stMidC4 m mS)).deleteSet "sha256:s"
      = ["sha256:s"]
    rw [hds]
    rfl
  · exact htag.trans rfl
  · exact hn1.trans rfl

/-- Witness for claim C4 at concrete manifest bodies: the run deletes only
the emptied clone. -/
theorem claim_C4_witness :
    (deleteByTag envC4
      (stC4 (Manifest.index ["sha256:c"]) (Manifest.leaf ["l1"]))).deletions
      = ["sha256:n"] :=
  (claim_C4 (Manifest.index ["sha256:c"]) (Manifest.leaf ["l1"])).2.2.1

/-! ## Characterization of the candidate set reducer trims -/

theorem filter_true_id (l : List String) : l.filter (fun _ => true) = l :=
  List.filter_eq_self.mpr (fun _ _ => rfl)

theorem trimStep_char (s : St) (d : String) (hnd : s.filterSet.Nodup) :
    trimStep s d = { s with filterSet := s.filterSet.filter (fun x => !(trimStepRemoves s.remote s.tagsInUse s.excludeTags d x)) } := by
  unfold trimStep trimStepRemoves
  rcases hm : getManifestByDigest s.remote d with _ | mf
  · simp only [hm]
    by_cases hc : referrerTagOf d ∈ s.tagsInUse ∧ referrerTagOf d ∉ s.excludeTags
    · simp only [eq_true hc, if_true]
      rcases htd : getTagDigest s.remote (referrerTagOf d) with _ | rd
      · simp only [htd]
        simp only [Bool.or_self, Bool.not_false, filter_true_id]
      · have hmt : getManifestByTag s.remote (referrerTagOf d) = getManifestByDigest s.remote rd := by
          unfold getManifestByTag
          rw [htd]
          rfl
        simp only [htd, hmt]
        rcases hm2 : getManifestByDigest s.remote rd with _ | mf2
        · simp only [hm2]
          rw [hnd.erase_eq_filter rd]
          refine congrArg (fun F => { s with filterSet := F }) (List.filter_congr (fun x _ => ?_))
          by_cases hx : x = rd
          · subst hx
            simp
          · simp [hx, bne]
        · cases mf2 with
          | leaf ls2 =>
            simp only [hm2]
            rw [hnd.erase_eq_filter rd]
            refine congrArg (fun F => { s with filterSet := F }) (List.filter_congr (fun x _ => ?_))
            by_cases hx : x = rd
            · subst hx
              simp
            · simp [hx, bne]
          | index cs2 =>
            simp only [hm2]
            rw [foldl_erase_eq_filter cs2 _ (hnd.erase rd), hnd.erase_eq_filter rd, List.filter_filter]
            refine congrArg (fun F => { s with filterSet := F }) (List.filter_congr (fun x _ => ?_))
            by_cases hx : x = rd
            · subst hx
              simp
            · by_cases hx2 : x ∈ cs2
              · simp [hx, hx2, bne]
              · simp [hx, hx2, bne]
    · simp only [eq_false hc, if_false]
      simp only [Bool.or_self, Bool.not_false, filter_true_id]
  · cases mf with
    | leaf ls =>
      simp only [hm]
      by_cases hc : referrerTagOf d ∈ s.tagsInUse ∧ referrerTagOf d ∉ s.excludeTags
      · simp only [eq_true hc, if_true]
        rcases htd : getTagDigest s.remote (referrerTagOf d) with _ | rd
        · simp only [htd]
          simp only [Bool.or_self, Bool.not_false, filter_true_id]
        · have hmt : getManifestByTag s.remote (referrerTagOf d) = getManifestByDigest s.remote rd := by
            unfold getManifestByTag
            rw [htd]
            rfl
          simp only [htd, hmt]
          rcases hm2 : getManifestByDigest s.remote rd with _ | mf2
          · simp only [hm2]
            rw [hnd.erase_eq_filter rd]
            refine congrArg (fun F => { s with filterSet := F }) (List.filter_congr (fun x _ => ?_))
            by_cases hx : x = rd
            · subst hx
              simp
            · simp [hx, bne]
          · cases mf2 with
            | leaf ls2 =>
              simp only [hm2]
              rw [hnd.erase_eq_filter rd]
              refine congrArg (fun F => { s with filterSet := F }) (List.filter_congr (fun x _ => ?_))
              by_cases hx : x = rd
              · subst hx
                simp
              · simp [hx, bne]
            | index cs2 =>
              simp only [hm2]
              rw [foldl_erase_eq_filter cs2 _ (hnd.erase rd), hnd.erase_eq_filter rd, List.filter_filter]
              refine congrArg (fun F => { s with filterSet := F }) (List.filter_congr (fun x _ => ?_))
              by_cases hx : x = rd
              · subst hx
                simp
              · by_cases hx2 : x ∈ cs2
                · simp [hx, hx2, bne]
                · simp [hx, hx2, bne]
      · simp only [eq_false hc, if_false]
        simp only [Bool.or_self, Bool.not_false, filter_true_id]
    | index cs =>
      simp only [hm]
      by_cases hc : referrerTagOf d ∈ s.tagsInUse ∧ referrerTagOf d ∉ s.excludeTags
      · simp only [eq_true hc, if_true]
        rcases htd : getTagDigest s.remote (referrerTagOf d) with _ | rd
        · simp only [htd]
          rw [foldl_erase_eq_filter cs s.filterSet hnd]
          refine congrArg (fun F => { s with filterSet := F }) (List.filter_congr (fun x _ => ?_))
          by_cases hcx : x ∈ cs
          · simp [hcx]
          · simp [hcx]
        · have hmt : getManifestByTag s.remote (referrerTagOf d) = getManifestByDigest s.remote rd := by
            unfold getManifestByTag
            rw [htd]
            rfl
          simp only [htd, hmt]
          rcases hm2 : getManifestByDigest s.remote rd with _ | mf2
          · simp only [hm2]
            rw [foldl_erase_eq_filter cs s.filterSet hnd, (hnd.filter _).erase_eq_filter rd, List.filter_filter]
            refine congrArg (fun F => { s with filterSet := F }) (List.filter_congr (fun x _ => ?_))
            by_cases hx : x = rd
            · subst hx
              simp
            · by_cases hcx : x ∈ cs
              · simp [hx, hcx, bne]
              · simp [hx, hcx, bne]
          · cases mf2 with
            | leaf ls2 =>
              simp only [hm2]
              rw [foldl_erase_eq_filter cs s.filterSet hnd, (hnd.filter _).erase_eq_filter rd, List.filter_filter]
              refine congrArg (fun F => { s with filterSet := F }) (List.filter_congr (fun x _ => ?_))
              by_cases hx : x = rd
              · subst hx
                simp
              · by_cases hcx : x ∈ cs
                · simp [hx, hcx, bne]
                · simp [hx, hcx, bne]
            | index cs2 =>
              simp only [hm2]
              rw [foldl_erase_eq_filter cs s.filterSet hnd, (hnd.filter _).erase_eq_filter rd, List.filter_filter]
              rw [foldl_erase_eq_filter cs2 _ (hnd.filter _), List.filter_filter]
              refine congrArg (fun F => { s with filterSet := F }) (List.filter_congr (fun x _ => ?_))
              by_cases hx : x = rd
              · subst hx
                simp
              · by_cases hcx : x ∈ cs
                · simp [hx, hcx, bne]
                · by_cases hx2 : x ∈ cs2
                  · simp [hx, hcx, hx2, bne]
                  · simp [hx, hcx, hx2, bne]
      · simp only [eq_false hc, if_false]
        rw [foldl_erase_eq_filter cs s.filterSet hnd]
        refine congrArg (fun F => { s with filterSet := F }) (List.filter_congr (fun x _ => ?_))
        by_cases hcx : x ∈ cs
        · simp [hcx]
        · simp [hcx]

theorem trimFold_char : ∀ (ds : List String) (s : St), s.filterSet.Nodup →
    ds.foldl trimStep s = { s with filterSet := s.filterSet.filter (fun x => !(ds.any (fun d => trimStepRemoves s.remote s.tagsInUse s.excludeTags d x))) }
  | [], s, _ => by
    simp [filter_true_id]
  | d :: t, s, hnd => by
    rw [List.foldl_cons, trimStep_char s d hnd]
    rw [trimFold_char t _ ((hnd.filter _ : (s.filterSet.filter _).Nodup))]
    dsimp only
    rw [List.filter_filter]
    refine congrArg (fun F => { s with filterSet := F }) (List.filter_congr (fun x _ => ?_))
    cases h1 : trimStepRemoves s.remote s.tagsInUse s.excludeTags d x
    · cases h2 : t.any (fun d2 => trimStepRemoves s.remote s.tagsInUse s.excludeTags d2 x)
      · simp [h1, h2]
      · simp [h1, h2]
    · simp [h1]

theorem trimChildren_char (st : St) (hnd : st.filterSet.Nodup) :
    trimChildren st = { st with filterSet := st.filterSet.filter (fun x => !(trimRemoves st.remote st.pkgs st.tagsInUse st.excludeTags x)) } := by
  unfold trimChildren trimRemoves
  exact trimFold_char (getDigests st.pkgs) st hnd

theorem excludeTrim_eq (env : Env) (st : St) :
    excludeTrim env st = match env.cfg.excludeTags with
      | none => { st with excludeTags := [] }
      | some pat => st.tagsInUse.foldl (exclStep pat) { st with excludeTags := [] } := rfl

theorem exclStep_char (pat : String) (s : St) (tag : String) (hnd : s.filterSet.Nodup) :
    exclStep pat s tag = { s with filterSet := s.filterSet.filter (fun x => !(wcmatch pat tag && (getDigestByTag s.pkgs tag == some x))), excludeTags := s.excludeTags ++ (if wcmatch pat tag then [tag] else []) } := by
  unfold exclStep
  cases hw : wcmatch pat tag
  · rw [if_neg Bool.false_ne_true]
    simp [filter_true_id]
  · rw [if_pos rfl]
    rcases hd : getDigestByTag s.pkgs tag with _ | dg
    · simp only [hd]
      simp [filter_true_id, beq_iff_eq]
    · simp only [hd]
      rw [hnd.erase_eq_filter dg]
      refine congrArg (fun F => { s with filterSet := F, excludeTags := s.excludeTags ++ [tag] }) (List.filter_congr (fun x _ => ?_))
      by_cases hx : x = dg
      · subst hx
        simp
      · have hxs : ¬dg = x := fun h => hx h.symm
        simp [bne, beq_iff_eq, hx, hxs]

theorem exclFold_char (pat : String) : ∀ (ts : List String) (s : St), s.filterSet.Nodup →
    ts.foldl (exclStep pat) s = { s with filterSet := s.filterSet.filter (fun x => !(ts.any (fun t => wcmatch pat t && (getDigestByTag s.pkgs t == some x)))), excludeTags := s.excludeTags ++ ts.filter (fun t => wcmatch pat t) }
  | [], s, _ => by
    simp [filter_true_id]
  | tg :: t, s, hnd => by
    rw [List.foldl_cons, exclStep_char pat s tg hnd]
    rw [exclFold_char pat t _ ((hnd.filter _ : (s.filterSet.filter _).Nodup))]
    dsimp only
    rw [List.filter_filter]
    refine congrArg₂ (fun F E => { s with filterSet := F, excludeTags := E }) ?_ ?_
    · refine List.filter_congr (fun x _ => ?_)
      cases h1 : wcmatch pat tg && (getDigestByTag s.pkgs tg == some x)
      · cases h2 : t.any (fun tt => wcmatch pat tt && (getDigestByTag s.pkgs tt == some x))
        · simp [h1, h2]
        · simp [h1, h2]
      · simp [h1]
    · cases hw : wcmatch pat tg
      · simp [hw, List.filter_cons]
      · simp [hw, List.filter_cons]

theorem excludeTrim_char (env : Env) (st : St) (hnd : st.filterSet.Nodup) :
    excludeTrim env st = { st with filterSet := st.filterSet.filter (fun x => !(exclRemoves env st.pkgs st.tagsInUse x)), excludeTags := exclTagsOf env st.tagsInUse } := by
  rw [excludeTrim_eq]
  unfold exclRemoves exclTagsOf
  rcases hc : env.cfg.excludeTags with _ | pat
  · simp only [hc]
    simp [filter_true_id]
  · simp only [hc]
    rw [exclFold_char pat st.tagsInUse { st with excludeTags := [] } (hnd : ({ st with excludeTags := ([] : List String) }).filterSet.Nodup)]
    simp

theorem ageTrim_eq (env : Env) (st : St) :
    ageTrim env st = match env.cfg.olderThan with
      | none => st
      | some o => st.filterSet.foldl (ageStep env.cfg.now o) st := rfl

theorem ageStep_char (now o : Int) (s : St) (dg : String) (hnd : s.filterSet.Nodup) :
    ageStep now o s dg = { s with filterSet := s.filterSet.filter (fun x => !((dg == x) && ageRaw now o s.pkgs dg)) } := by
  unfold ageStep ageRaw
  rcases hp : getPackageByDigest s.pkgs dg with _ | p
  · simp only [hp]
    simp [filter_true_id]
  · simp only [hp]
    rcases hu : p.updated_at with _ | t0
    · simp only [hu]
      simp [filter_true_id]
    · simp only [hu]
      by_cases hge : t0 ≥ now - o
      · rw [if_pos hge]
        rw [hnd.erase_eq_filter dg]
        refine congrArg (fun F => { s with filterSet := F }) (List.filter_congr (fun x _ => ?_))
        simp only [decide_eq_true hge, Bool.and_true]
        by_cases hx : x = dg
        · subst hx
          simp
        · have hxs : ¬dg = x := fun h => hx h.symm
          simp [bne, beq_iff_eq, hx, hxs]
      · rw [if_neg hge]
        have hb : decide (now ≤ t0 + o) = false := decide_eq_false (by omega)
        simp [hb, filter_true_id]

theorem ageFold_char (now o : Int) : ∀ (ds : List String) (s : St), s.filterSet.Nodup →
    ds.foldl (ageStep now o) s = { s with filterSet := s.filterSet.filter (fun x => !(ds.any (fun dd => (dd == x) && ageRaw now o s.pkgs dd))) }
  | [], s, _ => by
    simp [filter_true_id]
  | dd :: t, s, hnd => by
    rw [List.foldl_cons, ageStep_char now o s dd hnd]
    rw [ageFold_char now o t _ ((hnd.filter _ : (s.filterSet.filter _).Nodup))]
    dsimp only
    rw [List.filter_filter]
    refine congrArg (fun F => { s with filterSet := F }) (List.filter_congr (fun x _ => ?_))
    cases h1 : (dd == x) && ageRaw now o s.pkgs dd
    · cases h2 : t.any (fun d2 => (d2 == x) && ageRaw now o s.pkgs d2)
      · simp [h1, h2]
      · simp [h1, h2]
    · simp [h1]

theorem ageTrim_char (env : Env) (st : St) (hnd : st.filterSet.Nodup) :
    ageTrim env st = { st with filterSet := st.filterSet.filter (fun x => !(agePred env st.pkgs x)) } := by
  rw [ageTrim_eq]
  unfold agePred
  rcases hc : env.cfg.olderThan with _ | o
  · simp only [hc]
    simp [filter_true_id]
  · simp only [hc]
    rw [ageFold_char env.cfg.now o st.filterSet st hnd]
    refine congrArg (fun F => { st with filterSet := F }) (List.filter_congr (fun x hx => ?_))
    refine congrArg (fun b => !b) ?_
    cases hr : ageRaw env.cfg.now o st.pkgs x
    · refine List.any_eq_false.mpr (fun dd hdd => ?_)
      cases hdx : dd == x
      · simp [hdx]
      · have hde : dd = x := by simpa [beq_iff_eq] using hdx
        subst hde
        simp [hr]
    · exact List.any_eq_true.mpr ⟨x, hx, by simp [hr]⟩

theorem trimStepRemoves_iff (r : Remote) (tags E : List String) (d x : String) :
    trimStepRemoves r tags E d x = true ↔
      (∃ cs, getManifestByDigest r d = some (Manifest.index cs) ∧ x ∈ cs) ∨
      ((referrerTagOf d ∈ tags ∧ referrerTagOf d ∉ E) ∧ ∃ rd,
        getTagDigest r (referrerTagOf d) = some rd ∧
        (x = rd ∨ ∃ cs2, getManifestByDigest r rd = some (Manifest.index cs2) ∧ x ∈ cs2)) := by
  unfold trimStepRemoves
  by_cases hc : referrerTagOf d ∈ tags ∧ referrerTagOf d ∉ E
  · simp only [eq_true hc, if_true]
    rcases htd : getTagDigest r (referrerTagOf d) with _ | rd
    · rcases hm : getManifestByDigest r d with _ | mf
      · simp [htd, hm, hc]
      · cases mf <;> simp [htd, hm, hc]
    · rcases hm2 : getManifestByDigest r rd with _ | mf2
      · rcases hm : getManifestByDigest r d with _ | mf
        · simp [htd, hm, hm2, hc, beq_iff_eq]
        · cases mf <;> simp [htd, hm, hm2, hc, beq_iff_eq]
      · cases mf2 with
        | leaf ls2 =>
          rcases hm : getManifestByDigest r d with _ | mf
          · simp [htd, hm, hm2, hc, beq_iff_eq]
          · cases mf <;> simp [htd, hm, hm2, hc, beq_iff_eq]
        | index cs2 =>
          rcases hm : getManifestByDigest r d with _ | mf
          · simp [htd, hm, hm2, hc, beq_iff_eq]
          · cases mf <;> simp [htd, hm, hm2, hc, beq_iff_eq]
  · simp only [eq_false hc, if_false]
    rcases hm : getManifestByDigest r d with _ | mf
    · simp [hm, hc]
    · cases mf <;> simp [hm, hc]

theorem trimRemoves_iff (r : Remote) (pkgs : List PackageVersion) (tags E : List String) (x : String) :
    trimRemoves r pkgs tags E x = true ↔
      ∃ d ∈ getDigests pkgs, trimStepRemoves r tags E d x = true := by
  unfold trimRemoves
  simp [List.any_eq_true]

theorem exclRemoves_iff (env : Env) (pkgs : List PackageVersion) (tags : List String) (x : String) :
    exclRemoves env pkgs tags x = true ↔
      ∃ pat, env.cfg.excludeTags = some pat ∧
        ∃ t ∈ tags, wcmatch pat t = true ∧ getDigestByTag pkgs t = some x := by
  unfold exclRemoves
  rcases hc : env.cfg.excludeTags with _ | pat
  · simp [hc]
  · simp [hc, List.any_eq_true, beq_iff_eq]

theorem trimRemoves_bridge (env : Env) (r : Remote) (pkgs : List PackageVersion)
    (tags : List String)
    (hw1 : ∀ t ∈ tags, ∃ dd, getTagDigest r t = some dd ∧ dd ∈ getDigests pkgs)
    (hw2 : ∀ t ∈ tags, getDigestByTag pkgs t = getTagDigest r t) (x : String) :
    (trimRemoves r pkgs tags [] x || exclRemoves env pkgs tags x)
      = (trimRemoves r pkgs tags (exclTagsOf env tags) x || exclRemoves env pkgs tags x) := by
  rcases hpat : env.cfg.excludeTags with _ | pat
  · have hEX : exclTagsOf env tags = [] := by
      unfold exclTagsOf
      rw [hpat]
    rw [hEX]
  · have hEX : exclTagsOf env tags = tags.filter (fun t => wcmatch pat t) := by
      unfold exclTagsOf
      rw [hpat]
    rw [hEX, Bool.eq_iff_iff]
    simp only [Bool.or_eq_true]
    constructor
    · rintro (ht | he)
      · rcases (trimRemoves_iff r pkgs tags [] x).mp ht with ⟨d, hd, hstep⟩
        rcases (trimStepRemoves_iff r tags [] d x).mp hstep with
          hchild | ⟨⟨hin, _⟩, rd, hrd, hx⟩
        · exact Or.inl ((trimRemoves_iff r pkgs tags _ x).mpr
            ⟨d, hd, (trimStepRemoves_iff r tags _ d x).mpr (Or.inl hchild)⟩)
        · by_cases hexd : referrerTagOf d ∈ tags.filter (fun t => wcmatch pat t)
          · have hwc : wcmatch pat (referrerTagOf d) = true :=
              (List.mem_filter.mp hexd).2
            rcases hx with rfl | ⟨cs2, hcs2, hxcs2⟩
            · refine Or.inr ((exclRemoves_iff env pkgs tags x).mpr
                ⟨pat, hpat, referrerTagOf d, hin, hwc, ?_⟩)
              rw [hw2 _ hin]
              exact hrd
            · rcases hw1 _ hin with ⟨dd, hdd, hddmem⟩
              have hddrd : dd = rd := by
                rw [hdd] at hrd
                exact Option.some.inj hrd
              subst hddrd
              exact Or.inl ((trimRemoves_iff r pkgs tags _ x).mpr
                ⟨dd, hddmem, (trimStepRemoves_iff r tags _ dd x).mpr
                  (Or.inl ⟨cs2, hcs2, hxcs2⟩)⟩)
          · exact Or.inl ((trimRemoves_iff r pkgs tags _ x).mpr
              ⟨d, hd, (trimStepRemoves_iff r tags _ d x).mpr
                (Or.inr ⟨⟨hin, hexd⟩, rd, hrd, hx⟩)⟩)
      · exact Or.inr he
    · rintro (ht | he)
      · rcases (trimRemoves_iff r pkgs tags _ x).mp ht with ⟨d, hd, hstep⟩
        rcases (trimStepRemoves_iff r tags _ d x).mp hstep with
          hchild | ⟨⟨hin, _⟩, rd, hrd, hx⟩
        · exact Or.inl ((trimRemoves_iff r pkgs tags [] x).mpr
            ⟨d, hd, (trimStepRemoves_iff r tags [] d x).mpr (Or.inl hchild)⟩)
        · exact Or.inl ((trimRemoves_iff r pkgs tags [] x).mpr
            ⟨d, hd, (trimStepRemoves_iff r tags [] d x).mpr
              (Or.inr ⟨⟨hin, List.not_mem_nil _⟩, rd, hrd, hx⟩)⟩)
      · exact Or.inr he

theorem TEA_char (env : Env) (s : St) (hnd : s.filterSet.Nodup) :
    ageTrim env (excludeTrim env (trimChildren s)) = { s with filterSet := s.filterSet.filter (keepPred env s.remote s.pkgs s.tagsInUse (s.excludeTags)), excludeTags := exclTagsOf env s.tagsInUse } := by
  have h1 := trimChildren_char s hnd
  have hnd1 : (trimChildren s).filterSet.Nodup := by
    rw [h1]
    exact hnd.filter _
  have h2 := excludeTrim_char env (trimChildren s) hnd1
  have hnd2 : (excludeTrim env (trimChildren s)).filterSet.Nodup := by
    rw [h2]
    exact hnd1.filter _
  have h3 := ageTrim_char env (excludeTrim env (trimChildren s)) hnd2
  rw [h3, h2, h1]
  dsimp only
  rw [List.filter_filter, List.filter_filter]
  refine congrArg₂ (fun F E => { s with filterSet := F, excludeTags := E }) ?_ rfl
  refine List.filter_congr (fun x _ => ?_)
  simp only [keepPred]
  cases b1 : trimRemoves s.remote s.pkgs s.tagsInUse (s.excludeTags) x <;>
    cases b2 : exclRemoves env s.pkgs s.tagsInUse x <;>
      cases b3 : agePred env s.pkgs x <;> rfl

theorem TAE_char (env : Env) (s : St) (hnd : s.filterSet.Nodup) :
    excludeTrim env (ageTrim env (trimChildren s)) = { s with filterSet := s.filterSet.filter (keepPred env s.remote s.pkgs s.tagsInUse (s.excludeTags)), excludeTags := exclTagsOf env s.tagsInUse } := by
  have h1 := trimChildren_char s hnd
  have hnd1 : (trimChildren s).filterSet.Nodup := by
    rw [h1]
    exact hnd.filter _
  have h2 := ageTrim_char env (trimChildren s) hnd1
  have hnd2 : (ageTrim env (trimChildren s)).filterSet.Nodup := by
    rw [h2]
    exact hnd1.filter _
  have h3 := excludeTrim_char env (ageTrim env (trimChildren s)) hnd2
  rw [h3, h2, h1]
  dsimp only
  rw [List.filter_filter, List.filter_filter]
  refine congrArg₂ (fun F E => { s with filterSet := F, excludeTags := E }) ?_ rfl
  refine List.filter_congr (fun x _ => ?_)
  simp only [keepPred]
  cases b1 : trimRemoves s.remote s.pkgs s.tagsInUse (s.excludeTags) x <;>
    cases b2 : exclRemoves env s.pkgs s.tagsInUse x <;>
      cases b3 : agePred env s.pkgs x <;> rfl

theorem ATE_char (env : Env) (s : St) (hnd : s.filterSet.Nodup) :
    excludeTrim env (trimChildren (ageTrim env s)) = { s with filterSet := s.filterSet.filter (keepPred env s.remote s.pkgs s.tagsInUse (s.excludeTags)), excludeTags := exclTagsOf env s.tagsInUse } := by
  have h1 := ageTrim_char env s hnd
  have hnd1 : (ageTrim env s).filterSet.Nodup := by
    rw [h1]
    exact hnd.filter _
  have h2 := trimChildren_char (ageTrim env s) hnd1
  have hnd2 : (trimChildren (ageTrim env s)).filterSet.Nodup := by
    rw [h2]
    exact hnd1.filter _
  have h3 := excludeTrim_char env (trimChildren (ageTrim env s)) hnd2
  rw [h3, h2, h1]
  dsimp only
  rw [List.filter_filter, List.filter_filter]
  refine congrArg₂ (fun F E => { s with filterSet := F, excludeTags := E }) ?_ rfl
  refine List.filter_congr (fun x _ => ?_)
  simp only [keepPred]
  cases b1 : trimRemoves s.remote s.pkgs s.tagsInUse (s.excludeTags) x <;>
    cases b2 : exclRemoves env s.pkgs s.tagsInUse x <;>
      cases b3 : agePred env s.pkgs x <;> rfl

theorem ETA_char (env : Env) (s : St) (hnd : s.filterSet.Nodup) :
    ageTrim env (trimChildren (excludeTrim env s)) = { s with filterSet := s.filterSet.filter (keepPred env s.remote s.pkgs s.tagsInUse (exclTagsOf env s.tagsInUse)), excludeTags := exclTagsOf env s.tagsInUse } := by
  have h1 := excludeTrim_char env s hnd
  have hnd1 : (excludeTrim env s).filterSet.Nodup := by
    rw [h1]
    exact hnd.filter _
  have h2 := trimChildren_char (excludeTrim env s) hnd1
  have hnd2 : (trimChildren (excludeTrim env s)).filterSet.Nodup := by
    rw [h2]
    exact hnd1.filter _
  have h3 := ageTrim_char env (trimChildren (excludeTrim env s)) hnd2
  rw [h3, h2, h1]
  dsimp only
  rw [List.filter_filter, List.filter_filter]
  refine congrArg₂ (fun F E => { s with filterSet := F, excludeTags := E }) ?_ rfl
  refine List.filter_congr (fun x _ => ?_)
  simp only [keepPred]
  cases b1 : trimRemoves s.remote s.pkgs s.tagsInUse (exclTagsOf env s.tagsInUse) x <;>
    cases b2 : exclRemoves env s.pkgs s.tagsInUse x <;>
      cases b3 : agePred env s.pkgs x <;> rfl

theorem EAT_char (env : Env) (s : St) (hnd : s.filterSet.Nodup) :
    trimChildren (ageTrim env (excludeTrim env s)) = { s with filterSet := s.filterSet.filter (keepPred env s.remote s.pkgs s.tagsInUse (exclTagsOf env s.tagsInUse)), excludeTags := exclTagsOf env s.tagsInUse } := by
  have h1 := excludeTrim_char env s hnd
  have hnd1 : (excludeTrim env s).filterSet.Nodup := by
    rw [h1]
    exact hnd.filter _
  have h2 := ageTrim_char env (excludeTrim env s) hnd1
  have hnd2 : (ageTrim env (excludeTrim env s)).filterSet.Nodup := by
    rw [h2]
    exact hnd1.filter _
  have h3 := trimChildren_char (ageTrim env (excludeTrim env s)) hnd2
  rw [h3, h2, h1]
  dsimp only
  rw [List.filter_filter, List.filter_filter]
  refine congrArg₂ (fun F E => { s with filterSet := F, excludeTags := E }) ?_ rfl
  refine List.filter_congr (fun x _ => ?_)
  simp only [keepPred]
  cases b1 : trimRemoves s.remote s.pkgs s.tagsInUse (exclTagsOf env s.tagsInUse) x <;>
    cases b2 : exclRemoves env s.pkgs s.tagsInUse x <;>
      cases b3 : agePred env s.pkgs x <;> rfl

theorem AET_char (env : Env) (s : St) (hnd : s.filterSet.Nodup) :
    trimChildren (excludeTrim env (ageTrim env s)) = { s with filterSet := s.filterSet.filter (keepPred env s.remote s.pkgs s.tagsInUse (exclTagsOf env s.tagsInUse)), excludeTags := exclTagsOf env s.tagsInUse } := by
  have h1 := ageTrim_char env s hnd
  have hnd1 : (ageTrim env s).filterSet.Nodup := by
    rw [h1]
    exact hnd.filter _
  have h2 := excludeTrim_char env (ageTrim env s) hnd1
  have hnd2 : (excludeTrim env (ageTrim env s)).filterSet.Nodup := by
    rw [h2]
    exact hnd1.filter _
  have h3 := trimChildren_char (excludeTrim env (ageTrim env s)) hnd2
  rw [h3, h2, h1]
  dsimp only
  rw [List.filter_filter, List.filter_filter]
  refine congrArg₂ (fun F E => { s with filterSet := F, excludeTags := E }) ?_ rfl
  refine List.filter_congr (fun x _ => ?_)
  simp only [keepPred]

/-- Claim C6: from a fresh candidate state (duplicate-free filter set, empty
excluded tag list) whose registry and package metadata agree on tag
resolution, the three candidate set reducer trims are order-insensitive and
idempotent: all six application orders produce the same filter set — the
digests surviving the child/referrer removal, the exclude-tag removal and
the older-than removal — and the same excluded tag list; each trim applied
twice equals itself applied once; and the referrer part of the child trim
fires only for referrer tags outside the excluded tag list (an excluded
referrer tag's digest is instead removed by the exclude trim, and its index
children by the child part, which is what reconciles the orders). -/
theorem claim_C6 (env : Env) (st : St)
    (hnd : st.filterSet.Nodup) (hexcl : st.excludeTags = [])
    (hw1 : ∀ t ∈ st.tagsInUse, ∃ dd, getTagDigest st.remote t = some dd ∧ dd ∈ getDigests st.pkgs)
    (hw2 : ∀ t ∈ st.tagsInUse, getDigestByTag st.pkgs t = getTagDigest st.remote t) :
    ((ageTrim env (excludeTrim env (trimChildren st))).filterSet
        = st.filterSet.filter (keepPred env st.remote st.pkgs st.tagsInUse []) ∧
     (excludeTrim env (ageTrim env (trimChildren st))).filterSet
        = st.filterSet.filter (keepPred env st.remote st.pkgs st.tagsInUse []) ∧
     (excludeTrim env (trimChildren (ageTrim env st))).filterSet
        = st.filterSet.filter (keepPred env st.remote st.pkgs st.tagsInUse []) ∧
     (ageTrim env (trimChildren (excludeTrim env st))).filterSet
        = st.filterSet.filter (keepPred env st.remote st.pkgs st.tagsInUse []) ∧
     (trimChildren (ageTrim env (excludeTrim env st))).filterSet
        = st.filterSet.filter (keepPred env st.remote st.pkgs st.tagsInUse []) ∧
     (trimChildren (excludeTrim env (ageTrim env st))).filterSet
        = st.filterSet.filter (keepPred env st.remote st.pkgs st.tagsInUse [])) ∧
    ((ageTrim env (excludeTrim env (trimChildren st))).excludeTags = exclTagsOf env st.tagsInUse ∧
     (excludeTrim env (ageTrim env (trimChildren st))).excludeTags = exclTagsOf env st.tagsInUse ∧
     (excludeTrim env (trimChildren (ageTrim env st))).excludeTags = exclTagsOf env st.tagsInUse ∧
     (ageTrim env (trimChildren (excludeTrim env st))).excludeTags = exclTagsOf env st.tagsInUse ∧
     (trimChildren (ageTrim env (excludeTrim env st))).excludeTags = exclTagsOf env st.tagsInUse ∧
     (trimChildren (excludeTrim env (ageTrim env st))).excludeTags = exclTagsOf env st.tagsInUse) ∧
    (trimChildren (trimChildren st) = trimChildren st ∧
     excludeTrim env (excludeTrim env st) = excludeTrim env st ∧
     ageTrim env (ageTrim env st) = ageTrim env st) ∧
    (∀ (s : St) (d : String), referrerTagOf d ∈ s.excludeTags →
      trimStep s d = match getManifestByDigest s.remote d with
        | some (Manifest.index children) => { s with filterSet := children.foldl (fun fs c => fs.erase c) s.filterSet }
        | _ => s) := by
  have hkb : ∀ x, keepPred env st.remote st.pkgs st.tagsInUse (exclTagsOf env st.tagsInUse) x = keepPred env st.remote st.pkgs st.tagsInUse [] x := by
    intro x
    have hb := trimRemoves_bridge env st.remote st.pkgs st.tagsInUse hw1 hw2 x
    simp only [keepPred]
    cases b1 : trimRemoves st.remote st.pkgs st.tagsInUse [] x <;>
      cases b2 : trimRemoves st.remote st.pkgs st.tagsInUse (exclTagsOf env st.tagsInUse) x <;>
        cases b3 : exclRemoves env st.pkgs st.tagsInUse x <;>
          rw [b1, b2, b3] at hb <;>
            first
              | rfl
              | simp at hb
  have hfE : st.filterSet.filter (keepPred env st.remote st.pkgs st.tagsInUse (exclTagsOf env st.tagsInUse)) = st.filterSet.filter (keepPred env st.remote st.pkgs st.tagsInUse []) :=
    List.filter_congr (fun x _ => hkb x)
  refine ⟨⟨?_, ?_, ?_, ?_, ?_, ?_⟩, ⟨?_, ?_, ?_, ?_, ?_, ?_⟩, ⟨?_, ?_, ?_⟩, ?_⟩
  · rw [TEA_char env st hnd, hexcl]
  · rw [TAE_char env st hnd, hexcl]
  · rw [ATE_char env st hnd, hexcl]
  · rw [ETA_char env st hnd]
    exact hfE
  · rw [EAT_char env st hnd]
    exact hfE
  · rw [AET_char env st hnd]
    exact hfE
  · rw [TEA_char env st hnd]
  · rw [TAE_char env st hnd]
  · rw [ATE_char env st hnd]
  · rw [ETA_char env st hnd]
  · rw [EAT_char env st hnd]
  · rw [AET_char env st hnd]
  · have hndT : (trimChildren st).filterSet.Nodup := by
      rw [trimChildren_char st hnd]
      exact hnd.filter _
    rw [trimChildren_char (trimChildren st) hndT, trimChildren_char st hnd]
    dsimp only
    rw [List.filter_filter]
    refine congrArg (fun F => { st with filterSet := F }) ?_
    refine List.filter_congr (fun x _ => ?_)
    cases b1 : trimRemoves st.remote st.pkgs st.tagsInUse st.excludeTags x <;> rfl
  · have hndE : (excludeTrim env st).filterSet.Nodup := by
      rw [excludeTrim_char env st hnd]
      exact hnd.filter _
    rw [excludeTrim_char env (excludeTrim env st) hndE, excludeTrim_char env st hnd]
    dsimp only
    rw [List.filter_filter]
    refine congrArg₂ (fun F E => { st with filterSet := F, excludeTags := E }) ?_ rfl
    refine List.filter_congr (fun x _ => ?_)
    cases b1 : exclRemoves env st.pkgs st.tagsInUse x <;> rfl
  · have hndA : (ageTrim env st).filterSet.Nodup := by
      rw [ageTrim_char env st hnd]
      exact hnd.filter _
    rw [ageTrim_char env (ageTrim env st) hndA, ageTrim_char env st hnd]
    dsimp only
    rw [List.filter_filter]
    refine congrArg (fun F => { st with filterSet := F }) ?_
    refine List.filter_congr (fun x _ => ?_)
    cases b1 : agePred env st.pkgs x <;> rfl
  · intro s d href
    have hcond : ¬(referrerTagOf d ∈ s.tagsInUse ∧ referrerTagOf d ∉ s.excludeTags) := fun h => h.2 href
    unfold trimStep
    rcases hm : getManifestByDigest s.remote d with _ | mf
    · simp only [hm]
      rw [if_neg hcond]
    · cases mf with
      | leaf ls =>
        simp only [hm]
        rw [if_neg hcond]
      | index cs =>
        simp only [hm]
        rw [if_neg hcond]

/-- Witness for claim C6 at a concrete environment and state with an index
manifest, an excluded tag and an age cutoff. -/
theorem claim_C6_witness :
    (ageTrim envC6 (excludeTrim envC6 (trimChildren stC6))).filterSet
      = stC6.filterSet.filter (keepPred envC6 stC6.remote stC6.pkgs stC6.tagsInUse []) ∧
    (trimChildren (excludeTrim envC6 (ageTrim envC6 stC6))).filterSet
      = stC6.filterSet.filter (keepPred envC6 stC6.remote stC6.pkgs stC6.tagsInUse []) := by
  have hw1 : ∀ t ∈ stC6.tagsInUse, ∃ dd, getTagDigest stC6.remote t = some dd ∧ dd ∈ getDigests stC6.pkgs := by
    intro t ht
    have hte : t = "v1" := by simpa [stC6] using ht
    subst hte
    exact ⟨"sha256:top", by decide, by decide⟩
  have hw2 : ∀ t ∈ stC6.tagsInUse, getDigestByTag stC6.pkgs t = getTagDigest stC6.remote t := by
    intro t ht
    have hte : t = "v1" := by simpa [stC6] using ht
    subst hte
    decide
  have h := claim_C6 envC6 stC6 (by decide) rfl hw1 hw2
  exact ⟨h.1.1, h.1.2.2.2.2.2⟩

end GhcrCleanup
